import Mathlib

/-!
Verification development for the Privacy-Preserving Session Protection Subsystem
of the Multilingual-Mandi / AI Legal Aid repository.

The repository ships the design note, the requirements document and the
TypeScript interface declarations, but not the Python modules
(encryption.py, encrypted_session_manager.py) that the design note
summarises.  Every component below is therefore modelled from the spec:
the Encryption Manager, the PII Anonymizer, the Secure Data Manager and
the Encrypted Session Store are shallow functional embeddings that follow
the contracts of sections 3 to 7 of the design note.
-/

namespace LegalAid

/-! ## Encryption Manager -/

/-- Modelled from the spec: the modulus of the keyed authentication digest.
The HMAC of the Fernet construction is modelled as a keyed digest modulo the
prime 257, which is enough to detect every single bit flip and every wrong
key (encryption.py is absent from the repository). -/
def macModulus : Nat := 257

/-- Modelled from the spec: a key is valid when it is a residue of the
digest modulus; both key producers below only emit such keys. -/
def validKey (key : Nat) : Prop := key < macModulus

/-- Modelled from the spec: random key generation of the Encryption Manager. -/
def generateKey (seed : Nat) : Nat := (seed * 2654435761 + 97) % macModulus

/-- Modelled from the spec: the iteration count of the password based key
derivation function, at least 100000 per the design note. -/
def kdfIterations : Nat := 100000

/-- Modelled from the spec: one mixing round of the key derivation function. -/
def kdfRound (x : Nat) : Nat := (x * 131 + 7) % 1048576

/-- Modelled from the spec: iterated application of the mixing round. -/
def pbkdf : Nat → Nat → Nat
  | 0, acc => acc
  | n + 1, acc => pbkdf n (kdfRound acc)

/-- Modelled from the spec: the password and salt folded into a seed. -/
def passwordSeed (password : List Char) (salt : Nat) : Nat :=
  password.foldl (fun a c => a * 256 + c.toNat) salt

/-- Modelled from the spec: password based key derivation with a high
iteration count and a supplied salt. -/
def deriveKey (password : List Char) (salt : Nat) : Nat :=
  pbkdf kdfIterations (passwordSeed password salt) % macModulus

/-- Modelled from the spec: the per index keystream of the symmetric cipher
inside the Encryption Manager, a keyed byte stream added bytewise mod 256. -/
def keystream (key i : Nat) : Nat := (key * (2 * i + 1) + i * i) % 256

/-- Modelled from the spec: encryption of one byte at stream position i. -/
def encByte (key i p : Nat) : Nat := (p + keystream key i) % 256

/-- Modelled from the spec: decryption of one byte at stream position i. -/
def decByte (key i c : Nat) : Nat := (c + 256 - keystream key i) % 256

/-- Modelled from the spec: bytewise encryption of a payload from position i. -/
def encBodyAux (key : Nat) : Nat → List Nat → List Nat
  | _, [] => []
  | i, p :: ps => encByte key i p :: encBodyAux key (i + 1) ps

/-- Modelled from the spec: bytewise decryption of a body from position i. -/
def decBodyAux (key : Nat) : Nat → List Nat → List Nat
  | _, [] => []
  | i, c :: cs => decByte key i c :: decBodyAux key (i + 1) cs

/-- Little endian base 256 value of a byte list. -/
def bytesVal : List Nat → Nat
  | [] => 0
  | b :: bs => b + 256 * bytesVal bs

/-- Modelled from the spec: the keyed authentication digest over the
ciphertext body (the HMAC of the design note). -/
def digest (key : Nat) (body : List Nat) : Nat :=
  (key + bytesVal body) % macModulus

/-- Modelled from the spec: the error taxonomy of section 7 that the
Encryption Manager can surface. -/
inductive CryptoError
  | integrityError
  deriving DecidableEq

instance {ε α : Type} [DecidableEq ε] [DecidableEq α] :
    DecidableEq (Except ε α) := fun a b =>
  match a, b with
  | .ok x, .ok y =>
      if h : x = y then isTrue (by rw [h])
      else isFalse (fun hc => h (Except.ok.inj hc))
  | .error x, .error y =>
      if h : x = y then isTrue (by rw [h])
      else isFalse (fun hc => h (Except.error.inj hc))
  | .ok _, .error _ => isFalse (fun hc => Except.noConfusion hc)
  | .error _, .ok _ => isFalse (fun hc => Except.noConfusion hc)

/-- Modelled from the spec: authenticated symmetric encryption; the token is
the encrypted body followed by the two byte serialisation of the digest. -/
def encrypt (key : Nat) (ps : List Nat) : List Nat :=
  let body := encBodyAux key 0 ps
  let t := digest key body
  body ++ [t % 256, t / 256]

/-- Modelled from the spec: authenticated decryption; the digest is
recomputed and compared before any plaintext is released, and a mismatch
surfaces an integrity error with no partial plaintext. -/
def decrypt (key : Nat) (tok : List Nat) : Except CryptoError (List Nat) :=
  match tok.reverse with
  | t1 :: t0 :: rbody =>
      let body := rbody.reverse
      if t0 + 256 * t1 = digest key body then .ok (decBodyAux key 0 body)
      else .error .integrityError
  | _ => .error .integrityError

/-- Flip of bit j of the byte at position i of a token. -/
def flipBit (tok : List Nat) (i j : Nat) : List Nat :=
  tok.set i (tok.getD i 0 ^^^ 2 ^ j)

/-! ## Base64 encoding -/

/-- The base64 alphabet. -/
def b64Alphabet : List Char :=
  ("ABCDEFGHIJKLMNOPQRSTUVWXYZabcdefghijklmnopqrstuvwxyz0123456789+/").toList

/-- The character of a six bit group. -/
def sixtetToChar (n : Nat) : Char := b64Alphabet.getD n 'A'

/-- The six bit group of a base64 character. -/
def charToSixtet (c : Char) : Nat := b64Alphabet.findIdx (fun d => d = c)

/-- A character that may appear in base64 text. -/
def isB64Char (c : Char) : Prop := c ∈ b64Alphabet ∨ c = '='

/-- Base64 encoding of a byte list, with padding. -/
def base64Encode : List Nat → List Char
  | [] => []
  | [a] => [sixtetToChar (a / 4), sixtetToChar (a % 4 * 16), '=', '=']
  | [a, b] =>
      [sixtetToChar (a / 4), sixtetToChar (a % 4 * 16 + b / 16),
        sixtetToChar (b % 16 * 4), '=']
  | a :: b :: c :: rest =>
      sixtetToChar (a / 4) :: sixtetToChar (a % 4 * 16 + b / 16) ::
        sixtetToChar (b % 16 * 4 + c / 64) :: sixtetToChar (c % 64) ::
          base64Encode rest

/-- Base64 decoding, the partial inverse of the encoder. -/
def base64Decode : List Char → Option (List Nat)
  | [] => some []
  | w :: x :: y :: z :: rest =>
      if y = '=' ∧ z = '=' ∧ rest = [] then
        some [charToSixtet w * 4 + charToSixtet x / 16]
      else if z = '=' ∧ rest = [] then
        some [charToSixtet w * 4 + charToSixtet x / 16,
          charToSixtet x % 16 * 16 + charToSixtet y / 4]
      else
        (base64Decode rest).map (fun bs =>
          (charToSixtet w * 4 + charToSixtet x / 16) ::
            (charToSixtet x % 16 * 16 + charToSixtet y / 4) ::
              (charToSixtet y % 4 * 64 + charToSixtet z) :: bs)
  | _ => none

/-! ## Roundtrip lemmas for the cipher -/

lemma keystream_lt (key i : Nat) : keystream key i < 256 :=
  Nat.mod_lt _ (by norm_num)

lemma decByte_encByte (key i p : Nat) (h : p < 256) :
    decByte key i (encByte key i p) = p := by
  have hk := keystream_lt key i
  simp only [decByte, encByte]
  omega

lemma encByte_lt (key i p : Nat) : encByte key i p < 256 :=
  Nat.mod_lt _ (by norm_num)

lemma encBodyAux_lt (key : Nat) :
    ∀ (i : Nat) (ps : List Nat), ∀ b ∈ encBodyAux key i ps, b < 256 := by
  intro i ps
  induction ps generalizing i with
  | nil => simp [encBodyAux]
  | cons p ps ih =>
      intro b hb
      simp only [encBodyAux, List.mem_cons] at hb
      rcases hb with h | h
      · subst h; exact encByte_lt key i p
      · exact ih (i + 1) b h

lemma decBodyAux_encBodyAux (key : Nat) :
    ∀ (i : Nat) (ps : List Nat), (∀ p ∈ ps, p < 256) →
      decBodyAux key i (encBodyAux key i ps) = ps := by
  intro i ps
  induction ps generalizing i with
  | nil => intro _; rfl
  | cons p ps ih =>
      intro h
      simp only [encBodyAux, decBodyAux]
      rw [decByte_encByte key i p (h p (List.mem_cons_self p ps)),
        ih (i + 1) (fun q hq => h q (List.mem_cons_of_mem p hq))]

lemma digest_lt (key : Nat) (body : List Nat) : digest key body < 257 :=
  Nat.mod_lt _ (by norm_num [macModulus])

lemma decrypt_append (key : Nat) (body : List Nat) (t0 t1 : Nat) :
    decrypt key (body ++ [t0, t1]) =
      if t0 + 256 * t1 = digest key body then .ok (decBodyAux key 0 body)
      else .error .integrityError := by
  unfold decrypt
  rw [show (body ++ [t0, t1]).reverse = t1 :: t0 :: body.reverse by simp]
  simp

/-! ## Base64 lemmas -/

lemma charToSixtet_sixtetToChar : ∀ n, n < 64 → charToSixtet (sixtetToChar n) = n := by
  decide

lemma sixtetToChar_ne_pad : ∀ n, n < 64 → sixtetToChar n ≠ '=' := by
  decide

lemma sixtetToChar_mem : ∀ n, n < 64 → sixtetToChar n ∈ b64Alphabet := by
  decide

theorem base64Decode_encode :
    ∀ (bs : List Nat), (∀ b ∈ bs, b < 256) →
      base64Decode (base64Encode bs) = some bs
  | [], _ => rfl
  | [a], h => by
      have ha : a < 256 := h a (by simp)
      simp only [base64Encode, base64Decode]
      simp only [and_self, if_true]
      rw [charToSixtet_sixtetToChar (a / 4) (by omega),
        charToSixtet_sixtetToChar (a % 4 * 16) (by omega)]
      simp only [Option.some.injEq, List.cons.injEq, and_true]
      omega
  | [a, b], h => by
      have ha : a < 256 := h a (by simp)
      have hb : b < 256 := h b (by simp)
      have hy : sixtetToChar (b % 16 * 4) ≠ '=' :=
        sixtetToChar_ne_pad _ (by omega)
      simp only [base64Encode, base64Decode]
      rw [if_neg (by rintro ⟨h1, -⟩; exact hy h1)]
      simp only [and_self, if_true]
      rw [charToSixtet_sixtetToChar (a / 4) (by omega),
        charToSixtet_sixtetToChar (a % 4 * 16 + b / 16) (by omega),
        charToSixtet_sixtetToChar (b % 16 * 4) (by omega)]
      simp only [Option.some.injEq, List.cons.injEq, and_true]
      omega
  | a :: b :: c :: rest, h => by
      have ha : a < 256 := h a (by simp)
      have hb : b < 256 := h b (by simp)
      have hc : c < 256 := h c (by simp)
      have ih := base64Decode_encode rest
        (fun x hx => h x (by simp [List.mem_cons]; tauto))
      have hy : sixtetToChar (b % 16 * 4 + c / 64) ≠ '=' :=
        sixtetToChar_ne_pad _ (by omega)
      have hz : sixtetToChar (c % 64) ≠ '=' :=
        sixtetToChar_ne_pad _ (by omega)
      simp only [base64Encode, base64Decode]
      rw [if_neg (by rintro ⟨h1, -⟩; exact hy h1),
        if_neg (by rintro ⟨h1, -⟩; exact hz h1), ih]
      simp only [Option.map_some']
      rw [charToSixtet_sixtetToChar (a / 4) (by omega),
        charToSixtet_sixtetToChar (a % 4 * 16 + b / 16) (by omega),
        charToSixtet_sixtetToChar (b % 16 * 4 + c / 64) (by omega),
        charToSixtet_sixtetToChar (c % 64) (by omega)]
      simp only [Option.some.injEq, List.cons.injEq, and_true]
      omega

theorem base64Encode_chars :
    ∀ (bs : List Nat), (∀ b ∈ bs, b < 256) →
      ∀ c ∈ base64Encode bs, isB64Char c
  | [], _ => by simp [base64Encode]
  | [a], h => by
      have ha : a < 256 := h a (by simp)
      simp only [base64Encode]
      intro c hcm
      simp only [List.mem_cons, List.not_mem_nil, or_false] at hcm
      rcases hcm with rfl | rfl | rfl | rfl
      · exact Or.inl (sixtetToChar_mem _ (by omega))
      · exact Or.inl (sixtetToChar_mem _ (by omega))
      · exact Or.inr rfl
      · exact Or.inr rfl
  | [a, b], h => by
      have ha : a < 256 := h a (by simp)
      have hb : b < 256 := h b (by simp)
      simp only [base64Encode]
      intro c hcm
      simp only [List.mem_cons, List.not_mem_nil, or_false] at hcm
      rcases hcm with rfl | rfl | rfl | rfl
      · exact Or.inl (sixtetToChar_mem _ (by omega))
      · exact Or.inl (sixtetToChar_mem _ (by omega))
      · exact Or.inl (sixtetToChar_mem _ (by omega))
      · exact Or.inr rfl
  | a :: b :: c :: rest, h => by
      have ha : a < 256 := h a (by simp)
      have hb : b < 256 := h b (by simp)
      have hc : c < 256 := h c (by simp)
      have ih := base64Encode_chars rest
        (fun x hx => h x (by simp [List.mem_cons]; tauto))
      simp only [base64Encode]
      intro e hem
      simp only [List.mem_cons] at hem
      rcases hem with rfl | rfl | rfl | rfl | hm
      · exact Or.inl (sixtetToChar_mem _ (by omega))
      · exact Or.inl (sixtetToChar_mem _ (by omega))
      · exact Or.inl (sixtetToChar_mem _ (by omega))
      · exact Or.inl (sixtetToChar_mem _ (by omega))
      · exact ih e hm

lemma encrypt_bytes_lt (key : Nat) (ps : List Nat) :
    ∀ b ∈ encrypt key ps, b < 256 := by
  intro b hb
  simp only [encrypt, List.mem_append, List.mem_cons, List.not_mem_nil,
    or_false] at hb
  rcases hb with hm | rfl | rfl
  · exact encBodyAux_lt key 0 ps b hm
  · exact Nat.mod_lt _ (by norm_num)
  · have := digest_lt key (encBodyAux key 0 ps)
    omega

/-- C1: for every byte payload and every valid key produced by the
Encryption Manager (password derived or randomly generated), decrypting an
encryption of the payload under the same key returns exactly the payload,
and the ciphertext is representable as base64 text (its base64 encoding
decodes back to the ciphertext). -/
theorem encryption_roundtrip_and_base64 :
    (∀ key ps, validKey key → (∀ b ∈ ps, b < 256) →
      decrypt key (encrypt key ps) = .ok ps ∧
      base64Decode (base64Encode (encrypt key ps)) = some (encrypt key ps)) ∧
    (∀ password salt, validKey (deriveKey password salt)) ∧
    (∀ seed, validKey (generateKey seed)) := by
  refine ⟨fun key ps _ hps => ⟨?_, ?_⟩, fun password salt => ?_, fun seed => ?_⟩
  · show decrypt key (encBodyAux key 0 ps ++ _) = _
    rw [decrypt_append]
    have ht := digest_lt key (encBodyAux key 0 ps)
    rw [if_pos (by omega)]
    rw [decBodyAux_encBodyAux key 0 ps hps]
  · exact base64Decode_encode _ (encrypt_bytes_lt key ps)
  · exact Nat.mod_lt _ (by norm_num [macModulus])
  · exact Nat.mod_lt _ (by norm_num [macModulus])

/-- Witness for C1 at a concrete payload and a generated key. -/
theorem encryption_roundtrip_and_base64_witness :
    decrypt (generateKey 3) (encrypt (generateKey 3) [7, 200, 33]) =
      .ok [7, 200, 33] ∧
    base64Decode (base64Encode (encrypt (generateKey 3) [7, 200, 33])) =
      some (encrypt (generateKey 3) [7, 200, 33]) :=
  encryption_roundtrip_and_base64.1 (generateKey 3) [7, 200, 33]
    (encryption_roundtrip_and_base64.2.2 3) (by decide)

/-! ## Tamper detection -/

lemma bytesVal_set_mod_ne :
    ∀ (bs : List Nat) (i b2 : Nat), i < bs.length → (∀ x ∈ bs, x < 256) →
      b2 < 256 → b2 ≠ bs.getD i 0 →
      ¬ Nat.ModEq 257 (bytesVal (bs.set i b2)) (bytesVal bs)
  | [], i, b2 => by
      intro h
      simp at h
  | b :: tl, 0, b2 => by
      intro _ hall hb2 hne hmod
      rw [List.getD_cons_zero] at hne
      rw [List.set_cons_zero] at hmod
      simp only [bytesVal] at hmod
      have h2 : Nat.ModEq 257 b2 b := Nat.ModEq.add_right_cancel' _ hmod
      have hb : b < 256 := hall b (by simp)
      have h3 : b2 % 257 = b % 257 := h2
      rw [Nat.mod_eq_of_lt (by omega), Nat.mod_eq_of_lt (by omega)] at h3
      exact hne h3
  | b :: tl, n + 1, b2 => by
      intro hi hall hb2 hne hmod
      rw [List.getD_cons_succ] at hne
      rw [List.set_cons_succ] at hmod
      simp only [bytesVal] at hmod
      have h2 : Nat.ModEq 257 (256 * bytesVal (tl.set n b2)) (256 * bytesVal tl) :=
        Nat.ModEq.add_left_cancel' b hmod
      have h3 : Nat.ModEq 257 (bytesVal (tl.set n b2)) (bytesVal tl) :=
        Nat.ModEq.cancel_left_of_coprime (by norm_num) h2
      exact bytesVal_set_mod_ne tl n b2 (by simpa using hi)
        (fun x hx => hall x (by simp [hx])) hb2 hne h3

lemma xor_pow_ne (b j : Nat) : b ^^^ 2 ^ j ≠ b := by
  intro h
  have h2 : b ^^^ 2 ^ j ^^^ b = 0 := by rw [h, Nat.xor_self]
  rw [Nat.xor_comm b (2 ^ j), Nat.xor_assoc, Nat.xor_self, Nat.xor_zero] at h2
  have := Nat.two_pow_pos j
  omega

lemma xor_lt_256 (b j : Nat) (hb : b < 256) (hj : j < 8) : b ^^^ 2 ^ j < 256 := by
  have h1 : b < 2 ^ 8 := by norm_num at hb ⊢; omega
  have h2 : 2 ^ j < 2 ^ 8 := Nat.pow_lt_pow_right (by norm_num) hj
  have := Nat.xor_lt_two_pow h1 h2
  norm_num at this
  omega

lemma digest_eq (key : Nat) (body : List Nat) :
    digest key body = (key + bytesVal body) % 257 := rfl

/-- C2: every ciphertext produced by encrypt is rejected by decrypt with an
integrity error when any single bit of it is flipped or when a wrong valid
key is supplied, and in that case no plaintext at all is released: the
result is exactly the integrity error. -/
theorem tamper_and_wrong_key_rejected :
    ∀ key ps, validKey key → (∀ b ∈ ps, b < 256) →
      (∀ i j, i < (encrypt key ps).length → j < 8 →
        decrypt key (flipBit (encrypt key ps) i j) = .error .integrityError) ∧
      (∀ key2, validKey key2 → key2 ≠ key →
        decrypt key2 (encrypt key ps) = .error .integrityError) := by
  intro key ps hkey hps
  simp only [encrypt]
  set body := encBodyAux key 0 ps with hbody
  set t := digest key body with ht
  have htlt : t < 257 := digest_lt key body
  have htag : t % 256 + 256 * (t / 256) = t := by omega
  constructor
  · intro i j hi hj
    rw [List.length_append] at hi
    simp only [List.length_cons, List.length_nil] at hi
    unfold flipBit
    by_cases hlt : i < body.length
    · rw [List.getD_append _ _ _ _ hlt, List.set_append_left i _ hlt]
      rw [decrypt_append]
      rw [if_neg]
      intro heq
      rw [htag] at heq
      have hbv : Nat.ModEq 257 (bytesVal (body.set i (body.getD i 0 ^^^ 2 ^ j)))
          (bytesVal body) := by
        have h1 : (key + bytesVal body) % 257 =
            (key + bytesVal (body.set i (body.getD i 0 ^^^ 2 ^ j))) % 257 := by
          rw [← digest_eq, ← digest_eq, ← ht, heq]
        exact Nat.ModEq.add_left_cancel' key h1.symm
      have hmem : body.getD i 0 ∈ body := by
        rw [List.getD_eq_getElem _ _ hlt]
        exact List.getElem_mem hlt
      have hblt : body.getD i 0 < 256 := encBodyAux_lt key 0 ps _ hmem
      exact bytesVal_set_mod_ne body i _ hlt (encBodyAux_lt key 0 ps)
        (xor_lt_256 _ j hblt hj) (xor_pow_ne _ j) hbv
    · have hge : body.length ≤ i := Nat.le_of_not_lt hlt
      rw [List.getD_append_right _ _ _ _ hge, List.set_append_right i _ hge]
      have hcase : i - body.length = 0 ∨ i - body.length = 1 := by omega
      rcases hcase with hc | hc
      · rw [hc]
        rw [List.getD_cons_zero, List.set_cons_zero]
        rw [decrypt_append]
        rw [if_neg]
        intro heq
        rw [← ht] at heq
        have := xor_pow_ne (t % 256) j
        omega
      · rw [hc]
        rw [List.getD_cons_succ, List.getD_cons_zero, List.set_cons_succ,
          List.set_cons_zero]
        rw [decrypt_append]
        rw [if_neg]
        intro heq
        rw [← ht] at heq
        have := xor_pow_ne (t / 256) j
        omega
  · intro key2 hkey2 hne
    rw [decrypt_append]
    rw [if_neg]
    intro heq
    rw [htag] at heq
    have h1 : (key + bytesVal body) % 257 = (key2 + bytesVal body) % 257 := by
      rw [← digest_eq, ← digest_eq, ← ht, heq]
    have h2 : Nat.ModEq 257 key key2 := Nat.ModEq.add_right_cancel' _ h1
    have h3 : key % 257 = key2 % 257 := h2
    have hk1 : key < 257 := hkey
    have hk2 : key2 < 257 := hkey2
    rw [Nat.mod_eq_of_lt hk1, Nat.mod_eq_of_lt hk2] at h3
    exact hne h3.symm

/-- Witness for C2 at a concrete payload, bit position and wrong key. -/
theorem tamper_and_wrong_key_rejected_witness :
    decrypt 1 (flipBit (encrypt 1 [5, 77]) 0 0) = .error .integrityError ∧
    decrypt 2 (encrypt 1 [5, 77]) = .error .integrityError :=
  ⟨(tamper_and_wrong_key_rejected 1 [5, 77] (by norm_num [validKey, macModulus])
      (by decide)).1 0 0 (by decide) (by decide),
    (tamper_and_wrong_key_rejected 1 [5, 77] (by norm_num [validKey, macModulus])
      (by decide)).2 2 (by norm_num [validKey, macModulus]) (by decide)⟩

/-! ## PII Anonymizer: character classes -/

/-- Decimal digit character. -/
def isDigitCh (c : Char) : Bool := 48 ≤ c.toNat && c.toNat ≤ 57

/-- Uppercase ASCII letter. -/
def isUpperCh (c : Char) : Bool := 65 ≤ c.toNat && c.toNat ≤ 90

/-- Lowercase ASCII letter. -/
def isLowerCh (c : Char) : Bool := 97 ≤ c.toNat && c.toNat ≤ 122

/-- ASCII letter. -/
def isLetterCh (c : Char) : Bool := isUpperCh c || isLowerCh c

/-- ASCII letter or digit. -/
def isAlnumCh (c : Char) : Bool := isLetterCh c || isDigitCh c

/-- Word character in the sense of the regex class backslash w. -/
def isWordCh (c : Char) : Bool := isAlnumCh c || c = '_'

/-- Whitespace character. -/
def isSpaceCh (c : Char) : Bool := c = ' ' || c = '\t' || c = '\n' || c = '\r'

/-- Separator admitted between phone number groups. -/
def isSepCh (c : Char) : Bool := c = '-' || c = '.' || isSpaceCh c

/-- Slash or dash, the date separators of the date of birth pattern. -/
def isSlashDash (c : Char) : Bool := c = '/' || c = '-'

/-- Character admitted in an email local part. -/
def isLocalCh (c : Char) : Bool :=
  isAlnumCh c || c = '.' || c = '_' || c = '%' || c = '+' || c = '-'

/-- Character admitted in an email domain. -/
def isDomainCh (c : Char) : Bool := isAlnumCh c || c = '.' || c = '-'

/-- Character admitted in the middle segment of a street address. -/
def isMiddleCh (c : Char) : Bool := isAlnumCh c || isSpaceCh c || c = ','

/-- Word boundary after a match: end of input or a non word character next. -/
def atBoundary : List Char → Bool
  | [] => true
  | c :: _ => !isWordCh c

/-- Word boundary before a match: start of input or a non word character. -/
def boundaryOk : Option Char → Bool
  | none => true
  | some c => !isWordCh c

/-! ## PII Anonymizer: the seven category matchers.

Each matcher receives the suffix starting at the scan position and returns
the length of the greedy leftmost match there, or none.  They are modelled
from the regex table of the design note; the backtracking behaviour of the
regex engine is reproduced where it matters for these patterns. -/

/-- Consume exactly n digits. -/
def digitsN : Nat → List Char → Option (List Char)
  | 0, s => some s
  | _ + 1, [] => none
  | n + 1, c :: rest => if isDigitCh c then digitsN n rest else none

/-- Consume one optional separator. -/
def dropIfSep : List Char → List Char
  | [] => []
  | c :: rest => if isSepCh c then rest else c :: rest

/-- Consume one optional occurrence of a given character. -/
def dropIfChar (x : Char) : List Char → List Char
  | [] => []
  | c :: rest => if c = x then rest else c :: rest

/-- Modelled from the spec: the tail of the phone pattern, an optional open
parenthesis, three digits, an optional close parenthesis, an optional
separator, three digits, an optional separator, four digits, then a word
boundary. -/
def phoneCore (s : List Char) : Option (List Char) :=
  match digitsN 3 (dropIfChar '(' s) with
  | none => none
  | some s2 =>
      match digitsN 3 (dropIfSep (dropIfChar ')' s2)) with
      | none => none
      | some s5 =>
          match digitsN 4 (dropIfSep s5) with
          | none => none
          | some s7 => if atBoundary s7 then some s7 else none

/-- Modelled from the spec: the optional country code prefix of the phone
pattern, an optional plus, the digit one, an optional separator. -/
def phonePrefix (s : List Char) : Option (List Char) :=
  match dropIfChar '+' s with
  | c :: rest => if c = '1' then some (dropIfSep rest) else none
  | [] => none

/-- Modelled from the spec: the phone pattern of the anonymization table,
with the backtracking over the optional country code prefix. -/
def phoneMatch (s : List Char) : Option Nat :=
  match phonePrefix s with
  | some s2 =>
      match phoneCore s2 with
      | some rest => some (s.length - rest.length)
      | none => (phoneCore s).map (fun rest => s.length - rest.length)
  | none => (phoneCore s).map (fun rest => s.length - rest.length)

/-- Modelled from the spec: the email pattern, a nonempty local part, an at
sign, a domain whose trailing label is at least two letters preceded by a
dot, then a word boundary. -/
def emailMatch (s : List Char) : Option Nat :=
  let loc := s.takeWhile isLocalCh
  match s.drop loc.length with
  | '@' :: rest =>
      let dom := rest.takeWhile isDomainCh
      let after := rest.drop dom.length
      let tld := (dom.reverse.takeWhile isLetterCh).reverse
      let stem := dom.take (dom.length - tld.length)
      match stem.reverse with
      | '.' :: _ :: _ =>
          if 1 ≤ loc.length ∧ isWordCh (loc.headD '.') = true ∧
              2 ≤ tld.length ∧ atBoundary after = true then
            some (loc.length + 1 + dom.length)
          else none
      | _ => none
  | _ => none

/-- Modelled from the spec: the SSN shaped pattern, three digits, optional
dash, two digits, optional dash, four digits, then a word boundary. -/
def ssnMatch (s : List Char) : Option Nat :=
  match digitsN 3 s with
  | none => none
  | some s1 =>
      match digitsN 2 (dropIfChar '-' s1) with
      | none => none
      | some s3 =>
          match digitsN 4 (dropIfChar '-' s3) with
          | none => none
          | some s5 => if atBoundary s5 then some (s.length - s5.length) else none

/-- Modelled from the spec: the street suffixes of the address pattern. -/
def streetSuffixes : List (List Char) :=
  [("Street" : String).toList, ("St" : String).toList,
    ("Avenue" : String).toList, ("Ave" : String).toList,
    ("Road" : String).toList, ("Rd" : String).toList,
    ("Drive" : String).toList, ("Dr" : String).toList,
    ("Lane" : String).toList, ("Ln" : String).toList,
    ("Boulevard" : String).toList, ("Blvd" : String).toList,
    ("Court" : String).toList, ("Ct" : String).toList,
    ("Place" : String).toList, ("Pl" : String).toList]

/-- Whether some street suffix ends at position e of the middle segment,
with at least one middle character before it. -/
def suffixEndsAt (mid : List Char) (e : Nat) : Bool :=
  streetSuffixes.any (fun w =>
    decide (w.length + 1 ≤ e) && decide ((mid.take e).drop (e - w.length) = w))

/-- The largest end position of a street suffix in the middle segment that
lands on a word boundary, mirroring the greedy backtracking of the regex. -/
def findSuffixEnd (mid after : List Char) : Nat → Option Nat
  | 0 => none
  | e + 1 =>
      let bdOk :=
        if e + 1 = mid.length then atBoundary after
        else !isWordCh (mid.getD (e + 1) ' ')
      if bdOk && suffixEndsAt mid (e + 1) then some (e + 1)
      else findSuffixEnd mid after e

/-- Modelled from the spec: the street address pattern, digits, whitespace,
a run of letters, digits, whitespace and commas, ending in a street suffix
at a word boundary. -/
def addressMatch (s : List Char) : Option Nat :=
  let ds := s.takeWhile isDigitCh
  match ds, s.drop ds.length with
  | [], _ => none
  | _ :: _, [] => none
  | _ :: _, c :: rest =>
      if isSpaceCh c then
        let mid := (c :: rest).takeWhile isMiddleCh
        let after := (c :: rest).drop mid.length
        match findSuffixEnd mid after mid.length with
        | some e => some (ds.length + e)
        | none => none
      else none

/-- Modelled from the spec: the full name heuristic, a capitalized word of
at least three letters, whitespace, another capitalized word of at least
three letters, then a word boundary. -/
def nameMatch (s : List Char) : Option Nat :=
  match s with
  | [] => none
  | c0 :: rest =>
      if isUpperCh c0 then
        let l1 := rest.takeWhile isLowerCh
        if 2 ≤ l1.length then
          let r1 := rest.drop l1.length
          let sp := r1.takeWhile isSpaceCh
          if 1 ≤ sp.length then
            match r1.drop sp.length with
            | [] => none
            | c1 :: rest2 =>
                if isUpperCh c1 then
                  let l2 := rest2.takeWhile isLowerCh
                  if 2 ≤ l2.length ∧ atBoundary (rest2.drop l2.length) = true then
                    some (1 + l1.length + sp.length + 1 + l2.length)
                  else none
                else none
          else none
        else none
      else none

/-- Modelled from the spec: the month alternative of the date of birth
pattern, following the preference order of the regex alternation. -/
def monthTail : List Char → Option (List Char)
  | [] => none
  | [c] => if isDigitCh c && decide (c ≠ '0') then some [] else none
  | c :: d :: rest =>
      if c = '0' && isDigitCh d && decide (d ≠ '0') then some rest
      else if c = '1' && (d = '0' || d = '1' || d = '2') then some rest
      else if isDigitCh c && decide (c ≠ '0') then some (d :: rest)
      else none

/-- Modelled from the spec: the day alternative of the date of birth
pattern. -/
def dayTail : List Char → Option (List Char)
  | [] => none
  | [c] => if isDigitCh c && decide (c ≠ '0') then some [] else none
  | c :: d :: rest =>
      if c = '0' && isDigitCh d && decide (d ≠ '0') then some rest
      else if (c = '1' || c = '2') && isDigitCh d then some rest
      else if c = '3' && (d = '0' || d = '1') then some rest
      else if isDigitCh c && decide (c ≠ '0') then some (d :: rest)
      else none

/-- Modelled from the spec: the year group of the date of birth pattern,
nineteen or twenty followed by two digits. -/
def yearTail : List Char → Option (List Char)
  | a :: b :: c :: d :: rest =>
      if ((a = '1' && b = '9') || (a = '2' && b = '0')) &&
          isDigitCh c && isDigitCh d then some rest
      else none
  | _ => none

/-- Modelled from the spec: the date of birth pattern. -/
def dobMatch (s : List Char) : Option Nat :=
  match monthTail s with
  | none => none
  | some s1 =>
      match s1 with
      | [] => none
      | c1 :: s2 =>
          if isSlashDash c1 then
            match dayTail s2 with
            | none => none
            | some s3 =>
                match s3 with
                | [] => none
                | c2 :: s4 =>
                    if isSlashDash c2 then
                      match yearTail s4 with
                      | none => none
                      | some s5 =>
                          if atBoundary s5 then some (s.length - s5.length)
                          else none
                    else none
          else none

/-- Modelled from the spec: the ZIP code pattern, five digits optionally
followed by a dash and four digits, then a word boundary. -/
def zipMatch (s : List Char) : Option Nat :=
  match digitsN 5 s with
  | none => none
  | some s1 =>
      match s1 with
      | '-' :: s2 =>
          match digitsN 4 s2 with
          | some s3 => if atBoundary s3 then some (s.length - s3.length) else none
          | none => if atBoundary s1 then some (s.length - s1.length) else none
      | _ => if atBoundary s1 then some (s.length - s1.length) else none

/-! ## PII Anonymizer: detection and anonymization -/

/-- The PII categories of the anonymization table. -/
inductive PIICategory
  | phone
  | email
  | ssn
  | address
  | fullName
  | dob
  | zipCode
  deriving DecidableEq

/-- The label used inside a placeholder for each category. -/
def PIICategory.label : PIICategory → List Char
  | .phone => ("PHONE" : String).toList
  | .email => ("EMAIL" : String).toList
  | .ssn => ("SSN" : String).toList
  | .address => ("ADDRESS" : String).toList
  | .fullName => ("FULL_NAME" : String).toList
  | .dob => ("DATE_OF_BIRTH" : String).toList
  | .zipCode => ("ZIP_CODE" : String).toList

/-- Modelled from the spec: the ordered pattern table; more specific
patterns come before the bare postal code pattern. -/
def piiPatterns : List (PIICategory × (List Char → Option Nat)) :=
  [(.phone, phoneMatch), (.email, emailMatch), (.ssn, ssnMatch),
    (.address, addressMatch), (.fullName, nameMatch), (.dob, dobMatch),
    (.zipCode, zipMatch)]

/-- Try the patterns in table order at the current position. -/
def tryPatternsAux :
    List (PIICategory × (List Char → Option Nat)) → List Char →
      Option (PIICategory × Nat)
  | [], _ => none
  | (cat, m) :: rest, s =>
      match m s with
      | some n => some (cat, n)
      | none => tryPatternsAux rest s

/-- Try the full pattern table at the current position. -/
def tryPatterns (s : List Char) : Option (PIICategory × Nat) :=
  tryPatternsAux piiPatterns s

/-- Modelled from the spec: the left to right scan of detect; at every word
boundary the ordered patterns are tried and the match consumes its span.
The structural fuel always exceeds the remaining text length. -/
def detectFuel : Nat → Option Char → List Char → List (PIICategory × List Char)
  | 0, _, _ => []
  | _ + 1, _, [] => []
  | fuel + 1, prev, c :: rest =>
      if boundaryOk prev then
        match tryPatterns (c :: rest) with
        | some (cat, len) =>
            let len2 := max 1 len
            (cat, (c :: rest).take len2) ::
              detectFuel fuel (some ((c :: rest).getD (len2 - 1) c))
                ((c :: rest).drop len2)
        | none => detectFuel fuel (some c) rest
      else detectFuel fuel (some c) rest

/-- Modelled from the spec: detect applied from the start of the text. -/
def detect (s : List Char) : List (PIICategory × List Char) :=
  detectFuel s.length none s

/-- The substring to placeholder mapping of one anonymization call. -/
abbrev PIIMapping := List (List Char × List Char)

/-- Lookup of a matched substring in the mapping. -/
def lookupMap : PIIMapping → List Char → Option (List Char)
  | [], _ => none
  | (k, v) :: rest, key => if key = k then some v else lookupMap rest key

/-- Decimal digit characters of a number, with structural fuel. -/
def natDigitsAux : Nat → Nat → List Char
  | 0, _ => []
  | fuel + 1, n =>
      if n < 10 then [Char.ofNat (48 + n)]
      else natDigitsAux fuel (n / 10) ++ [Char.ofNat (48 + n % 10)]

/-- Decimal digit characters of a number. -/
def natDigits (n : Nat) : List Char := natDigitsAux (n + 1) n

/-- Modelled from the spec: the placeholder token of a category and a one
based counter value. -/
def placeholder (cat : PIICategory) (n : Nat) : List Char :=
  '[' :: (cat.label ++ ('_' :: (natDigits n ++ [']'])))

/-- Increment of the per category counter. -/
def bump (f : PIICategory → Nat) (cat : PIICategory) : PIICategory → Nat :=
  fun c => if c = cat then f c + 1 else f c

/-- Modelled from the spec: the fold that builds the substring mapping; a
substring already mapped keeps its placeholder, a new substring receives
the next placeholder of its category. -/
def buildMappingAux :
    PIIMapping → (PIICategory → Nat) → List (PIICategory × List Char) →
      PIIMapping
  | m, _, [] => m
  | m, cnt, (cat, txt) :: rest =>
      match lookupMap m txt with
      | some _ => buildMappingAux m cnt rest
      | none =>
          buildMappingAux (m ++ [(txt, placeholder cat (cnt cat + 1))])
            (bump cnt cat) rest

/-- Modelled from the spec: the mapping of one anonymization call, built
from the detected matches with all counters starting at zero. -/
def buildMapping (ms : List (PIICategory × List Char)) : PIIMapping :=
  buildMappingAux [] (fun _ => 0) ms

/-- Modelled from the spec: the rewriting pass; the same scan as detect,
replacing every matched span by its placeholder from the mapping.  The
structural fuel always exceeds the remaining text length. -/
def renderFuel : Nat → Option Char → List Char → PIIMapping → List Char
  | 0, _, _, _ => []
  | _ + 1, _, [], _ => []
  | fuel + 1, prev, c :: rest, m =>
      if boundaryOk prev then
        match tryPatterns (c :: rest) with
        | some (_, len) =>
            let len2 := max 1 len
            let txt := (c :: rest).take len2
            (lookupMap m txt).getD txt ++
              renderFuel fuel (some ((c :: rest).getD (len2 - 1) c))
                ((c :: rest).drop len2) m
        | none => c :: renderFuel fuel (some c) rest m
      else c :: renderFuel fuel (some c) rest m

/-- Modelled from the spec: anonymize returns the rewritten text and the
substring to placeholder mapping of this one call. -/
def anonymize (s : List Char) : List Char × PIIMapping :=
  let m := buildMapping (detect s)
  (renderFuel s.length none s m, m)

/-! ## Consistent pseudonymization -/

/-- Wellformedness of a mapping: lookup agrees with membership, and every
value is a placeholder with a positive counter. -/
def wfMapping (m : PIIMapping) : Prop :=
  (∀ k v, (k, v) ∈ m → lookupMap m k = some v) ∧
  (∀ k v, (k, v) ∈ m → ∃ cat n, 1 ≤ n ∧ v = placeholder cat n)

lemma lookupMap_append (m1 m2 : PIIMapping) (k : List Char) :
    lookupMap (m1 ++ m2) k =
      match lookupMap m1 k with
      | some v => some v
      | none => lookupMap m2 k := by
  induction m1 with
  | nil => simp [lookupMap]
  | cons p rest ih =>
      obtain ⟨pk, pv⟩ := p
      by_cases h : k = pk
      · simp [lookupMap, h]
      · simp [lookupMap, h, ih]

lemma lookupMap_mem (m : PIIMapping) (k v : List Char)
    (h : lookupMap m k = some v) : (k, v) ∈ m := by
  induction m with
  | nil => simp [lookupMap] at h
  | cons p rest ih =>
      obtain ⟨pk, pv⟩ := p
      by_cases hk : k = pk
      · rw [lookupMap, if_pos hk] at h
        simp only [Option.some.injEq] at h
        simp [hk, h]
      · rw [lookupMap, if_neg hk] at h
        exact List.mem_cons_of_mem _ (ih h)

lemma wfMapping_nil : wfMapping [] := by
  constructor <;> intro k v h <;> simp at h

lemma wfMapping_insert (m : PIIMapping) (k0 : List Char) (cat : PIICategory)
    (n : Nat) (hn : 1 ≤ n) (hnone : lookupMap m k0 = none)
    (hm : wfMapping m) : wfMapping (m ++ [(k0, placeholder cat n)]) := by
  constructor
  · intro k v hmem
    rw [List.mem_append] at hmem
    rcases hmem with hmem | hmem
    · rw [lookupMap_append, hm.1 k v hmem]
    · simp only [List.mem_singleton, Prod.mk.injEq] at hmem
      obtain ⟨rfl, rfl⟩ := hmem
      rw [lookupMap_append, hnone]
      simp [lookupMap]
  · intro k v hmem
    rw [List.mem_append] at hmem
    rcases hmem with hmem | hmem
    · exact hm.2 k v hmem
    · simp only [List.mem_singleton, Prod.mk.injEq] at hmem
      obtain ⟨rfl, rfl⟩ := hmem
      exact ⟨cat, n, hn, rfl⟩

lemma buildMappingAux_wf :
    ∀ (ms : List (PIICategory × List Char)) (m : PIIMapping)
      (cnt : PIICategory → Nat), wfMapping m →
      wfMapping (buildMappingAux m cnt ms) := by
  intro ms
  induction ms with
  | nil => intro m cnt hm; exact hm
  | cons p rest ih =>
      intro m cnt hm
      obtain ⟨cat, txt⟩ := p
      rw [buildMappingAux]
      cases hl : lookupMap m txt with
      | some v => exact ih m cnt hm
      | none =>
          exact ih _ _ (wfMapping_insert m txt cat (cnt cat + 1)
            (by omega) hl hm)

lemma buildMappingAux_mono :
    ∀ (ms : List (PIICategory × List Char)) (m : PIIMapping)
      (cnt : PIICategory → Nat) (k v : List Char),
      lookupMap m k = some v →
      lookupMap (buildMappingAux m cnt ms) k = some v := by
  intro ms
  induction ms with
  | nil => intro m cnt k v h; exact h
  | cons p rest ih =>
      intro m cnt k v h
      obtain ⟨cat, txt⟩ := p
      rw [buildMappingAux]
      cases hl : lookupMap m txt with
      | some w => exact ih m cnt k v h
      | none =>
          apply ih
          rw [lookupMap_append, h]

lemma buildMappingAux_covers :
    ∀ (ms : List (PIICategory × List Char)) (m : PIIMapping)
      (cnt : PIICategory → Nat), wfMapping m →
      ∀ cat txt, (cat, txt) ∈ ms →
        ∃ cat2 n, 1 ≤ n ∧
          lookupMap (buildMappingAux m cnt ms) txt =
            some (placeholder cat2 n) := by
  intro ms
  induction ms with
  | nil =>
      intro m cnt _ cat txt h
      simp at h
  | cons p rest ih =>
      intro m cnt hm cat txt hmem
      obtain ⟨cat0, txt0⟩ := p
      rw [List.mem_cons] at hmem
      rcases hmem with heq | hmem
      · obtain ⟨rfl, rfl⟩ := Prod.mk.injEq _ _ _ _ ▸ heq
        rw [buildMappingAux]
        cases hl : lookupMap m txt with
        | some v =>
            obtain ⟨cat2, n, hn, rfl⟩ := hm.2 txt v (lookupMap_mem m txt v hl)
            exact ⟨cat2, n, hn, buildMappingAux_mono rest m cnt txt _ hl⟩
        | none =>
            refine ⟨cat, cnt cat + 1, by omega, ?_⟩
            apply buildMappingAux_mono
            rw [lookupMap_append, hl]
            simp [lookupMap]
      · rw [buildMappingAux]
        cases hl : lookupMap m txt0 with
        | some v => exact ih m cnt hm cat txt hmem
        | none =>
            exact ih _ _ (wfMapping_insert m txt0 cat0 (cnt cat0 + 1)
              (by omega) hl hm) cat txt hmem

/-- C4: in one anonymization call, identical matched substrings always map
to the same placeholder: the mapping returned by anonymize relates every
substring to at most one value, every detected match has an entry in it,
and every entry value is a placeholder of shape category underscore n with
a one based counter n. -/
theorem anonymize_consistent_pseudonymization (s : List Char) :
    (∀ k v1 v2, (k, v1) ∈ (anonymize s).2 → (k, v2) ∈ (anonymize s).2 →
      v1 = v2) ∧
    (∀ cat txt, (cat, txt) ∈ detect s →
      ∃ cat2 n, 1 ≤ n ∧
        lookupMap (anonymize s).2 txt = some (placeholder cat2 n)) := by
  have h2 : (anonymize s).2 = buildMapping (detect s) := rfl
  have hwf : wfMapping (buildMapping (detect s)) :=
    buildMappingAux_wf (detect s) [] (fun _ => 0) wfMapping_nil
  constructor
  · intro k v1 v2 hm1 hm2
    rw [h2] at hm1 hm2
    have e1 := hwf.1 k v1 hm1
    have e2 := hwf.1 k v2 hm2
    rw [e1] at e2
    exact (Option.some.injEq _ _ ▸ e2).symm ▸ rfl
  · intro cat txt hdet
    rw [h2]
    exact buildMappingAux_covers (detect s) [] (fun _ => 0) wfMapping_nil
      cat txt hdet

/-- Witness for C4 at a text containing the same email twice. -/
theorem anonymize_consistent_pseudonymization_witness :
    (∀ v1 v2,
      (("john@email.com" : String).toList, v1) ∈
        (anonymize ("john@email.com or john@email.com" : String).toList).2 →
      (("john@email.com" : String).toList, v2) ∈
        (anonymize ("john@email.com or john@email.com" : String).toList).2 →
      v1 = v2) ∧
    (∃ cat2 n, 1 ≤ n ∧
      lookupMap (anonymize ("john@email.com or john@email.com" : String).toList).2
        ("john@email.com" : String).toList = some (placeholder cat2 n)) :=
  ⟨fun v1 v2 h1 h2 =>
    (anonymize_consistent_pseudonymization
      ("john@email.com or john@email.com" : String).toList).1 _ v1 v2 h1 h2,
    (anonymize_consistent_pseudonymization
      ("john@email.com or john@email.com" : String).toList).2 .email
      ("john@email.com" : String).toList (by decide)⟩

/-! ## Category correctness on the literal examples -/

/-- C6: the literal examples of the spec produce exactly the stated
placeholders: the phone text contains the phone placeholder and not the raw
digits, the bare email becomes the email placeholder, the SSN shaped text
becomes the SSN placeholder and not a phone placeholder, and the name and
address sentence contains both the full name and the address placeholder. -/
theorem anonymize_category_examples :
    (anonymize ("Call me at 555-123-4567" : String).toList).1 =
      ("Call me at [PHONE_1]" : String).toList ∧
    ¬ ("555-123-4567" : String).toList <:+:
      (anonymize ("Call me at 555-123-4567" : String).toList).1 ∧
    (anonymize ("john@email.com" : String).toList).1 =
      ("[EMAIL_1]" : String).toList ∧
    (anonymize ("123-45-6789" : String).toList).1 =
      ("[SSN_1]" : String).toList ∧
    ¬ ("[PHONE" : String).toList <:+:
      (anonymize ("123-45-6789" : String).toList).1 ∧
    ("[FULL_NAME_1]" : String).toList <:+:
      (anonymize ("John Smith lives at 123 Main St" : String).toList).1 ∧
    ("[ADDRESS_1]" : String).toList <:+:
      (anonymize ("John Smith lives at 123 Main St" : String).toList).1 := by
  decide

/-! ## The ZIP code pattern and what actually claims a five digit number -/

/-- C10 counterexample: the text 12345-6789 is a word bounded five digit
number followed by a hyphen and four digits, yet anonymize does not emit a
ZIP code placeholder for it: the earlier SSN shaped pattern claims it, so
the output is the SSN placeholder. -/
theorem zip_plus_four_claimed_by_ssn :
    (anonymize ("12345-6789" : String).toList).1 = ("[SSN_1]" : String).toList ∧
    (anonymize ("12345-6789" : String).toList).2 =
      [(("12345-6789" : String).toList, ("[SSN_1]" : String).toList)] ∧
    ¬ ("[ZIP_CODE_1]" : String).toList <:+:
      (anonymize ("12345-6789" : String).toList).1 := by
  decide

lemma digit_toNat (c : Char) (h : isDigitCh c = true) :
    48 ≤ c.toNat ∧ c.toNat ≤ 57 := by
  simpa [isDigitCh, Bool.and_eq_true, decide_eq_true_eq] using h

lemma digit_ne (c : Char) (h : isDigitCh c = true) (x : Char)
    (hx : x.toNat < 48 ∨ 57 < x.toNat) : c ≠ x := by
  have hn := digit_toNat c h
  intro hc
  subst hc
  omega

lemma digit_isUpper (c : Char) (h : isDigitCh c = true) : isUpperCh c = false := by
  have hn := digit_toNat c h
  simp only [isUpperCh, Bool.and_eq_false_iff, decide_eq_false_iff_not]
  omega

lemma digit_isLower (c : Char) (h : isDigitCh c = true) : isLowerCh c = false := by
  have hn := digit_toNat c h
  simp only [isLowerCh, Bool.and_eq_false_iff, decide_eq_false_iff_not]
  omega

lemma digit_isSpace (c : Char) (h : isDigitCh c = true) : isSpaceCh c = false := by
  have h1 := digit_ne c h ' ' (by decide)
  have h2 := digit_ne c h '\t' (by decide)
  have h3 := digit_ne c h '\n' (by decide)
  have h4 := digit_ne c h '\r' (by decide)
  simp [isSpaceCh, h1, h2, h3, h4]

lemma digit_isSep (c : Char) (h : isDigitCh c = true) : isSepCh c = false := by
  have h1 := digit_ne c h '-' (by decide)
  have h2 := digit_ne c h '.' (by decide)
  simp [isSepCh, h1, h2, digit_isSpace c h]

lemma digit_isSlashDash (c : Char) (h : isDigitCh c = true) :
    isSlashDash c = false := by
  have h1 := digit_ne c h '/' (by decide)
  have h2 := digit_ne c h '-' (by decide)
  simp [isSlashDash, h1, h2]

lemma digit_isLocal (c : Char) (h : isDigitCh c = true) : isLocalCh c = true := by
  simp [isLocalCh, isAlnumCh, h]

lemma phoneCore_digits2 (d e : Char) (hd : isDigitCh d = true)
    (he : isDigitCh e = true) : phoneCore [d, e] = none := by
  have hd1 := digit_ne d hd '(' (by decide)
  simp [phoneCore, dropIfChar, digitsN, hd1, hd, he]

lemma phone_none (a b c d e : Char) (ha : isDigitCh a = true)
    (hb : isDigitCh b = true) (hc : isDigitCh c = true)
    (hd : isDigitCh d = true) (he : isDigitCh e = true) :
    phoneMatch [a, b, c, d, e] = none := by
  have hap := digit_ne a ha '+' (by decide)
  have hal := digit_ne a ha '(' (by decide)
  have hbl := digit_ne b hb '(' (by decide)
  have hdr := digit_ne d hd ')' (by decide)
  have her := digit_ne e he ')' (by decide)
  have hds := digit_isSep d hd
  have hes := digit_isSep e he
  have hbs := digit_isSep b hb
  have hcore5 : phoneCore [a, b, c, d, e] = none := by
    simp [phoneCore, dropIfChar, dropIfSep, digitsN, hal, hdr, hds, hes,
      ha, hb, hc, hd, he]
  by_cases h1 : a = '1'
  · subst h1
    have hcore4 : phoneCore [b, c, d, e] = none := by
      simp [phoneCore, dropIfChar, dropIfSep, digitsN, hbl, her, hes,
        hb, hc, hd, he]
    simp [phoneMatch, phonePrefix, dropIfChar, dropIfSep, hbs, hcore4, hcore5]
  · simp [phoneMatch, phonePrefix, dropIfChar, hap, h1, hcore5]

lemma email_none (a b c d e : Char) (ha : isDigitCh a = true)
    (hb : isDigitCh b = true) (hc : isDigitCh c = true)
    (hd : isDigitCh d = true) (he : isDigitCh e = true) :
    emailMatch [a, b, c, d, e] = none := by
  simp [emailMatch, List.takeWhile, digit_isLocal a ha, digit_isLocal b hb,
    digit_isLocal c hc, digit_isLocal d hd, digit_isLocal e he]

lemma ssn_none (a b c d e : Char) (ha : isDigitCh a = true)
    (hb : isDigitCh b = true) (hc : isDigitCh c = true)
    (hd : isDigitCh d = true) (he : isDigitCh e = true) :
    ssnMatch [a, b, c, d, e] = none := by
  have hdd := digit_ne d hd '-' (by decide)
  simp [ssnMatch, dropIfChar, digitsN, hdd, ha, hb, hc, hd, he]

lemma address_none (a b c d e : Char) (ha : isDigitCh a = true)
    (hb : isDigitCh b = true) (hc : isDigitCh c = true)
    (hd : isDigitCh d = true) (he : isDigitCh e = true) :
    addressMatch [a, b, c, d, e] = none := by
  simp [addressMatch, List.takeWhile, ha, hb, hc, hd, he]

lemma name_none (a : Char) (ha : isDigitCh a = true) (rest : List Char) :
    nameMatch (a :: rest) = none := by
  simp [nameMatch, digit_isUpper a ha]

lemma dob_none (a b c d e : Char) (_ha : isDigitCh a = true)
    (hb : isDigitCh b = true) (hc : isDigitCh c = true)
    (_hd : isDigitCh d = true) (_he : isDigitCh e = true) :
    dobMatch [a, b, c, d, e] = none := by
  have hbs := digit_isSlashDash b hb
  have hcs := digit_isSlashDash c hc
  simp only [dobMatch]
  cases hmt : monthTail [a, b, c, d, e] with
  | none => rfl
  | some s1 =>
      rw [monthTail] at hmt
      split_ifs at hmt <;> simp only [Option.some.injEq] at hmt
      · subst hmt
        simp [hcs]
      · subst hmt
        simp [hcs]
      · subst hmt
        simp [hbs]

lemma zip_digits5 (a b c d e : Char) (ha : isDigitCh a = true)
    (hb : isDigitCh b = true) (hc : isDigitCh c = true)
    (hd : isDigitCh d = true) (he : isDigitCh e = true) :
    zipMatch [a, b, c, d, e] = some 5 := by
  simp [zipMatch, digitsN, atBoundary, ha, hb, hc, hd, he]

lemma tryPatterns_digits5 (a b c d e : Char) (ha : isDigitCh a = true)
    (hb : isDigitCh b = true) (hc : isDigitCh c = true)
    (hd : isDigitCh d = true) (he : isDigitCh e = true) :
    tryPatterns [a, b, c, d, e] = some (.zipCode, 5) := by
  simp [tryPatterns, piiPatterns, tryPatternsAux,
    phone_none a b c d e ha hb hc hd he, email_none a b c d e ha hb hc hd he,
    ssn_none a b c d e ha hb hc hd he, address_none a b c d e ha hb hc hd he,
    name_none a ha, dob_none a b c d e ha hb hc hd he,
    zip_digits5 a b c d e ha hb hc hd he]

/-- C10 amended: a word bounded five digit number is detected as ZIP code
only when no earlier, more specific pattern claims a span covering it; in
particular every standalone all digit five character text is anonymized to
exactly the ZIP code placeholder, while the hyphenated nine digit form is
claimed by the SSN pattern. -/
theorem standalone_five_digit_zip (ds : List Char) (h5 : ds.length = 5)
    (hdall : ∀ c ∈ ds, isDigitCh c = true) :
    anonymize ds = (placeholder .zipCode 1, [(ds, placeholder .zipCode 1)]) := by
  rcases ds with _ | ⟨a, _ | ⟨b, _ | ⟨c, _ | ⟨d, _ | ⟨e, _ | ⟨f, tl⟩⟩⟩⟩⟩⟩
  · simp at h5
  · simp at h5
  · simp at h5
  · simp at h5
  · simp at h5
  · have ha := hdall a (by simp)
    have hb := hdall b (by simp)
    have hc := hdall c (by simp)
    have hd := hdall d (by simp)
    have he := hdall e (by simp)
    have htry := tryPatterns_digits5 a b c d e ha hb hc hd he
    have hdet : detect [a, b, c, d, e] = [(.zipCode, [a, b, c, d, e])] := by
      simp [detect, detectFuel, htry, boundaryOk]
    have hmap : buildMapping (detect [a, b, c, d, e]) =
        [([a, b, c, d, e], placeholder .zipCode 1)] := by
      rw [hdet]
      simp [buildMapping, buildMappingAux, lookupMap]
    show (renderFuel _ none _ (buildMapping (detect [a, b, c, d, e])),
      buildMapping (detect [a, b, c, d, e])) = _
    rw [hmap]
    simp [renderFuel, htry, lookupMap, boundaryOk]
  · simp only [List.length_cons] at h5
    omega

/-- Witness for the amended C10 at the concrete text 90210. -/
theorem standalone_five_digit_zip_witness :
    anonymize ("90210" : String).toList =
      (placeholder .zipCode 1,
        [(("90210" : String).toList, placeholder .zipCode 1)]) :=
  standalone_five_digit_zip ("90210" : String).toList (by decide) (by decide)

/-! ## User context anonymization -/

/-- Modelled from the spec: the location slice of the user context, with
state, county, zip code, and optional geographic coordinates. -/
structure UserLocation where
  state : List Char
  county : List Char
  zipCode : List Char
  coordinates : Option (ℚ × ℚ)

/-- Modelled from the spec: the consistent hash of the county value. -/
def countyHash (c : List Char) : Nat :=
  c.foldl (fun a ch => a * 1000 + ch.toNat % 1000) 1

/-- Modelled from the spec: the deterministic, session independent county
pseudonym derived from the county value alone. -/
def pseudonymizeCounty (c : List Char) : List Char :=
  '[' :: ('C' :: 'O' :: 'U' :: 'N' :: 'T' :: 'Y' :: '_' ::
    (natDigits (countyHash c) ++ [']']))

/-- Modelled from the spec: zip code truncation to its first three
characters with the remainder masked. -/
def maskZip (z : List Char) : List Char := z.take 3 ++ ['X', 'X']

/-- Modelled from the spec: the fixed per field policy of
anonymizeUserContext; state kept, county pseudonymized, zip truncated,
coordinates dropped. -/
def anonymizeUserContext (u : UserLocation) : UserLocation :=
  { state := u.state
    county := pseudonymizeCounty u.county
    zipCode := maskZip u.zipCode
    coordinates := none }

/-- The digit digit digit X X shape required of a masked zip code. -/
def matchesZipMask : List Char → Bool
  | [c1, c2, c3, x1, x2] =>
      isDigitCh c1 && isDigitCh c2 && isDigitCh c3 && x1 = 'X' && x2 = 'X'
  | _ => false

lemma natDigitsAux_lt :
    ∀ (fuel n : Nat), n < fuel → n < 10 ^ (natDigitsAux fuel n).length := by
  intro fuel
  induction fuel with
  | zero => intro n h; omega
  | succ fuel ih =>
      intro n h
      rw [natDigitsAux]
      by_cases h10 : n < 10
      · rw [if_pos h10]
        simp only [List.length_cons, List.length_nil]
        omega
      · rw [if_neg h10]
        have hdiv : n / 10 < fuel := by omega
        have hih := ih (n / 10) hdiv
        rw [List.length_append]
        simp only [List.length_cons, List.length_nil, pow_succ]
        have hrep : n = 10 * (n / 10) + n % 10 := (Nat.div_add_mod n 10).symm ▸ rfl
        generalize hM : (10 : Nat) ^ (natDigitsAux fuel (n / 10)).length = M at hih
        omega

lemma natDigits_lt (n : Nat) : n < 10 ^ (natDigits n).length :=
  natDigitsAux_lt (n + 1) n (by omega)

lemma foldl_countyHash_ge :
    ∀ (c : List Char) (a : Nat),
      a * 1000 ^ c.length ≤
        c.foldl (fun a ch => a * 1000 + ch.toNat % 1000) a := by
  intro c
  induction c with
  | nil => intro a; simp
  | cons ch tl ih =>
      intro a
      rw [List.foldl_cons, List.length_cons]
      calc a * 1000 ^ (tl.length + 1) = a * 1000 * 1000 ^ tl.length := by ring
        _ ≤ (a * 1000 + ch.toNat % 1000) * 1000 ^ tl.length :=
            Nat.mul_le_mul_right _ (by omega)
        _ ≤ _ := ih (a * 1000 + ch.toNat % 1000)

lemma countyHash_ge (c : List Char) : 1000 ^ c.length ≤ countyHash c := by
  simpa [countyHash] using foldl_countyHash_ge c 1

lemma pseudonymizeCounty_length (c : List Char) :
    (pseudonymizeCounty c).length =
      9 + (natDigits (countyHash c)).length := by
  simp only [pseudonymizeCounty, List.length_cons, List.length_append,
    List.length_nil]
  omega

lemma pseudonymizeCounty_ne (c : List Char) : pseudonymizeCounty c ≠ c := by
  intro h
  have hlen := congrArg List.length h
  rw [pseudonymizeCounty_length] at hlen
  have h1 : 10 ^ (3 * c.length) ≤ countyHash c := by
    rw [pow_mul]
    norm_num
    exact countyHash_ge c
  have h2 : 3 * c.length < (natDigits (countyHash c)).length := by
    have h3 := natDigits_lt (countyHash c)
    exact (Nat.pow_lt_pow_iff_right (by norm_num)).mp (lt_of_le_of_lt h1 h3)
  omega

/-- C5: anonymizeUserContext preserves the state verbatim, replaces the
county by a deterministic, session independent, nonempty pseudonym that
differs from the original value, truncates the zip code to its first three
digits with the remainder masked, and removes the coordinates entirely;
and on the literal example context the state stays CA, the zip becomes
946XX, the county pseudonym differs from Alameda, and the coordinates are
absent. -/
theorem user_context_location_policy :
    (∀ u : UserLocation,
      (anonymizeUserContext u).state = u.state ∧
      (anonymizeUserContext u).coordinates = none ∧
      (anonymizeUserContext u).county = pseudonymizeCounty u.county ∧
      (anonymizeUserContext u).county ≠ [] ∧
      (anonymizeUserContext u).county ≠ u.county ∧
      (∀ v : UserLocation, v.county = u.county →
        (anonymizeUserContext v).county = (anonymizeUserContext u).county) ∧
      (anonymizeUserContext u).zipCode = u.zipCode.take 3 ++ ['X', 'X'] ∧
      (3 ≤ u.zipCode.length → (∀ ch ∈ u.zipCode, isDigitCh ch = true) →
        matchesZipMask (anonymizeUserContext u).zipCode = true)) ∧
    ((anonymizeUserContext
        ⟨("CA" : String).toList, ("Alameda" : String).toList,
          ("94601" : String).toList, some (37.7, -122.2)⟩).state =
        ("CA" : String).toList ∧
      (anonymizeUserContext
        ⟨("CA" : String).toList, ("Alameda" : String).toList,
          ("94601" : String).toList, some (37.7, -122.2)⟩).zipCode =
        ("946XX" : String).toList ∧
      (anonymizeUserContext
        ⟨("CA" : String).toList, ("Alameda" : String).toList,
          ("94601" : String).toList, some (37.7, -122.2)⟩).coordinates =
        none ∧
      (anonymizeUserContext
        ⟨("CA" : String).toList, ("Alameda" : String).toList,
          ("94601" : String).toList, some (37.7, -122.2)⟩).county ≠
        ("Alameda" : String).toList ∧
      (anonymizeUserContext
        ⟨("CA" : String).toList, ("Alameda" : String).toList,
          ("94601" : String).toList, some (37.7, -122.2)⟩).county ≠ []) := by
  constructor
  · intro u
    refine ⟨rfl, rfl, rfl, by simp [anonymizeUserContext, pseudonymizeCounty],
      pseudonymizeCounty_ne u.county, fun v hv => ?_, rfl, ?_⟩
    · show pseudonymizeCounty v.county = pseudonymizeCounty u.county
      rw [hv]
    · intro h3 hdig
      show matchesZipMask (maskZip u.zipCode) = true
      rcases hz : u.zipCode with _ | ⟨z1, _ | ⟨z2, _ | ⟨z3, zr⟩⟩⟩
      · rw [hz] at h3; simp at h3
      · rw [hz] at h3; simp at h3
      · rw [hz] at h3; simp at h3
      · rw [hz] at hdig
        have hz1 := hdig z1 (by simp)
        have hz2 := hdig z2 (by simp)
        have hz3 := hdig z3 (by simp)
        simp [maskZip, List.take, matchesZipMask, hz1, hz2, hz3]
  · refine ⟨rfl, by decide, rfl, ?_, by decide⟩
    exact pseudonymizeCounty_ne (("Alameda" : String).toList)

/-- Witness for C5 at the literal example context. -/
theorem user_context_location_policy_witness :
    matchesZipMask (anonymizeUserContext
      ⟨("CA" : String).toList, ("Alameda" : String).toList,
        ("94601" : String).toList, some (37.7, -122.2)⟩).zipCode = true ∧
    (anonymizeUserContext
      ⟨("CA" : String).toList, ("Alameda" : String).toList,
        ("94601" : String).toList, some (37.7, -122.2)⟩).county ≠
      ("Alameda" : String).toList := by
  have h := user_context_location_policy
  exact ⟨(h.1 ⟨("CA" : String).toList, ("Alameda" : String).toList,
      ("94601" : String).toList, some (37.7, -122.2)⟩).2.2.2.2.2.2.2
      (by decide) (by decide),
    h.2.2.2.2.1⟩

/-! ## Secure Data Manager: secure file deletion -/

/-- Modelled from the spec: the error taxonomy of section 7 used by the
Secure Data Manager and the Encrypted Session Store. -/
inductive StoreError
  | sessionNotFound
  | integrityError
  | secureDeletionError
  deriving DecidableEq

/-- Modelled from the spec: the file store together with the fault oracle
of the storage medium and the state of the random generator. -/
structure FileSys where
  files : Nat → Option (List Nat)
  faulty : Nat → Bool
  rng : Nat

/-- Observable events of a secure deletion. -/
inductive FsEvent
  | write (path : Nat) (content : List Nat)
  | flush
  | remove (path : Nat)
  deriving DecidableEq

/-- Modelled from the spec: the fixed overwrite pass count, at least 3. -/
def secureDeletePasses : Nat := 3

/-- Modelled from the spec: freshly generated random bytes of a pass. -/
def randomBytes (seed len : Nat) : List Nat :=
  (List.range len).map
    (fun i => (seed * 6364136223 + i * 1442695040 + 11) % 256)

/-- The write and flush events of the overwrite passes, one fresh random
buffer per pass. -/
def overwriteEvents (path seed len : Nat) : Nat → List FsEvent
  | 0 => []
  | k + 1 =>
      .write path (randomBytes seed len) :: .flush ::
        overwriteEvents path (seed + 1) len k

/-- Modelled from the spec: secureDeleteFile overwrites the content in
place with fresh random bytes for the fixed number of passes, flushing
between passes, then removes the path; a missing path is a no op success;
a fault during a pass or the removal surfaces SecureDeletionError and the
file is not reported deleted. -/
def secureDeleteFile (fs : FileSys) (path : Nat) :
    FileSys × List FsEvent × Except StoreError Unit :=
  match fs.files path with
  | none => (fs, [], .ok ())
  | some content =>
      if fs.faulty path then
        (fs, [.write path (randomBytes fs.rng content.length)],
          .error .secureDeletionError)
      else
        ({ files := fun p => if p = path then none else fs.files p,
            faulty := fs.faulty,
            rng := fs.rng + secureDeletePasses },
          overwriteEvents path fs.rng content.length secureDeletePasses ++
            [.remove path],
          .ok ())

/-- Count of write events in a deletion trace. -/
def countWrites : List FsEvent → Nat
  | [] => 0
  | .write _ _ :: rest => 1 + countWrites rest
  | _ :: rest => countWrites rest

/-! ## Encrypted Session Store: data model and serialization -/

/-- Modelled from the spec: one conversation turn. -/
structure ConvTurn where
  timestamp : Nat
  userInput : List Char
  systemResponse : List Char
  confidence : Nat
  disclaimerShown : Bool
  deriving DecidableEq

/-- Modelled from the spec: the session record owned by the store. -/
structure SessionData where
  sessionId : Nat
  startTime : Nat
  lastActivity : Nat
  language : List Char
  history : List ConvTurn
  ctxState : List Char
  ctxCounty : List Char
  ctxZip : List Char
  disclaimerAck : Bool
  deriving DecidableEq

/-- Serialization of a number, digits then a semicolon. -/
def serNat (n : Nat) : List Char := natDigits n ++ [';']

/-- Serialization of a string, length prefixed. -/
def serStr (s : List Char) : List Char := serNat s.length ++ s

/-- Serialization of a boolean. -/
def serBool : Bool → List Char
  | true => ['1']
  | false => ['0']

/-- Serialization of a conversation turn. -/
def serTurn (t : ConvTurn) : List Char :=
  serNat t.timestamp ++ serStr t.userInput ++ serStr t.systemResponse ++
    serNat t.confidence ++ serBool t.disclaimerShown

/-- Modelled from the spec: the plaintext record serialization used before
encryption (the JSON like text form of the record). -/
def serializeSession (s : SessionData) : List Char :=
  '{' :: (serNat s.sessionId ++ serNat s.startTime ++ serNat s.lastActivity ++
    serStr s.language ++ serNat s.history.length ++
    (s.history.foldr (fun t acc => serTurn t ++ acc) []) ++
    serStr s.ctxState ++ serStr s.ctxCounty ++ serStr s.ctxZip ++
    serBool s.disclaimerAck ++ ['}'])

/-- Value of a digit string. -/
def digitsVal (ds : List Char) : Nat :=
  ds.foldl (fun a c => a * 10 + (c.toNat - 48)) 0

/-- Parse a serialized number. -/
def parseNat (s : List Char) : Option (Nat × List Char) :=
  let ds := s.takeWhile isDigitCh
  match s.drop ds.length with
  | ';' :: rest => if ds.isEmpty then none else some (digitsVal ds, rest)
  | _ => none

/-- Parse a length prefixed string. -/
def parseStr (s : List Char) : Option (List Char × List Char) :=
  match parseNat s with
  | none => none
  | some (n, rest) =>
      if n ≤ rest.length then some (rest.take n, rest.drop n) else none

/-- Parse a serialized boolean. -/
def parseBool : List Char → Option (Bool × List Char)
  | '1' :: rest => some (true, rest)
  | '0' :: rest => some (false, rest)
  | _ => none

/-- Parse a serialized conversation turn. -/
def parseTurn (s : List Char) : Option (ConvTurn × List Char) :=
  match parseNat s with
  | none => none
  | some (ts, r1) =>
      match parseStr r1 with
      | none => none
      | some (ui, r2) =>
          match parseStr r2 with
          | none => none
          | some (sr, r3) =>
              match parseNat r3 with
              | none => none
              | some (conf, r4) =>
                  match parseBool r4 with
                  | none => none
                  | some (ds, r5) => some (⟨ts, ui, sr, conf, ds⟩, r5)

/-- Parse a counted list of conversation turns. -/
def parseTurns : Nat → List Char → Option (List ConvTurn × List Char)
  | 0, s => some ([], s)
  | n + 1, s =>
      match parseTurn s with
      | none => none
      | some (t, rest) =>
          match parseTurns n rest with
          | none => none
          | some (ts, rest2) => some (t :: ts, rest2)

/-- Modelled from the spec: the record deserialization, the partial inverse
of serializeSession. -/
def parseSession (s : List Char) : Option SessionData :=
  match s with
  | '{' :: r0 =>
      match parseNat r0 with
      | none => none
      | some (sid, r1) =>
          match parseNat r1 with
          | none => none
          | some (st, r2) =>
              match parseNat r2 with
              | none => none
              | some (la, r3) =>
                  match parseStr r3 with
                  | none => none
                  | some (lang, r4) =>
                      match parseNat r4 with
                      | none => none
                      | some (n, r5) =>
                          match parseTurns n r5 with
                          | none => none
                          | some (hist, r6) =>
                              match parseStr r6 with
                              | none => none
                              | some (cs, r7) =>
                                  match parseStr r7 with
                                  | none => none
                                  | some (cc, r8) =>
                                      match parseStr r8 with
                                      | none => none
                                      | some (cz, r9) =>
                                          match parseBool r9 with
                                          | none => none
                                          | some (ack, r10) =>
                                              match r10 with
                                              | ['}'] =>
                                                  some ⟨sid, st, la, lang,
                                                    hist, cs, cc, cz, ack⟩
                                              | _ => none
  | _ => none

/-- Characters to bytes. -/
def charsToBytes (s : List Char) : List Nat := s.map (fun c => c.toNat % 256)

/-- Bytes to characters. -/
def bytesToChars (bs : List Nat) : List Char := bs.map (fun b => Char.ofNat b)

/-- Modelled from the spec: encryptRecord serializes the record and applies
the byte level primitives, producing base64 text; the key is an input, not
a part of the produced record. -/
def encryptRecord (key : Nat) (s : SessionData) : List Char :=
  base64Encode (encrypt key (charsToBytes (serializeSession s)))

/-- Modelled from the spec: decryptRecord, the partial inverse of
encryptRecord for reads. -/
def decryptRecord (key : Nat) (blob : List Char) : Option SessionData :=
  match base64Decode blob with
  | none => none
  | some tok =>
      match decrypt key tok with
      | .error _ => none
      | .ok bytes => parseSession (bytesToChars bytes)

/-! ## Encrypted Session Store: state and operations -/

/-- Modelled from the spec: the state of the Encrypted Session Store; the
underlying session store holds only opaque text blobs, the wrapper tracks
temporary audio paths, the per session phase flags record Ended and Ending. -/
structure StoreState where
  key : Nat
  store : Nat → Option (List Char)
  fsys : FileSys
  tracked : Nat → List Nat
  ended : Nat → Bool
  ending : Nat → Bool
  nextId : Nat
  nextPath : Nat

/-- Modelled from the spec: the initial store state for a key and a fault
oracle of the file medium. -/
def initState (key : Nat) (faulty : Nat → Bool) : StoreState :=
  { key := key
    store := fun _ => none
    fsys := { files := fun _ => none, faulty := faulty, rng := 0 }
    tracked := fun _ => []
    ended := fun _ => false
    ending := fun _ => false
    nextId := 0
    nextPath := 0 }

/-- Modelled from the spec: the empty session record of createSession. -/
def emptySession (id now : Nat) : SessionData :=
  { sessionId := id
    startTime := now
    lastActivity := now
    language := ['e', 'n']
    history := []
    ctxState := []
    ctxCounty := []
    ctxZip := []
    disclaimerAck := false }

/-- A session identifier is dead when it is ended or unknown. -/
def isDead (σ : StoreState) (id : Nat) : Bool :=
  σ.ended id || (σ.store id).isNone

/-- Modelled from the spec: createSession persists the encrypted form of a
fresh empty record immediately and returns the new identifier. -/
def createSession (σ : StoreState) (now : Nat) : StoreState × Nat :=
  ({ σ with
      store := fun x =>
        if x = σ.nextId then some (encryptRecord σ.key (emptySession σ.nextId now))
        else σ.store x
      nextId := σ.nextId + 1 }, σ.nextId)

/-- Modelled from the spec: getSession reads and decrypts, is free of side
effects, and fails with SessionNotFoundError on a dead identifier. -/
def getSession (σ : StoreState) (id : Nat) : Except StoreError SessionData :=
  if isDead σ id then .error .sessionNotFound
  else
    match σ.store id with
    | none => .error .sessionNotFound
    | some blob =>
        match decryptRecord σ.key blob with
        | none => .error .integrityError
        | some s => .ok s

/-- Modelled from the spec: a partial update carrying new conversational
content, an optional raw user context and an optional disclaimer flag. -/
structure SessionUpdate where
  newTurns : List ConvTurn
  newContext : Option UserLocation
  setAck : Option Bool

/-- Modelled from the spec: anonymizeConversationTurn anonymizes the free
text fields and leaves timestamp, confidence and flags untouched. -/
def anonymizeConversationTurn (t : ConvTurn) : ConvTurn :=
  { t with
      userInput := (anonymize t.userInput).1
      systemResponse := (anonymize t.systemResponse).1 }

/-- Modelled from the spec: the merge of a partial update, anonymizing new
conversational content and the user context, refreshing last activity. -/
def applyUpdate (s : SessionData) (u : SessionUpdate) (now : Nat) :
    SessionData :=
  let s1 := { s with
      history := s.history ++ u.newTurns.map anonymizeConversationTurn
      lastActivity := now
      disclaimerAck := u.setAck.getD s.disclaimerAck }
  match u.newContext with
  | none => s1
  | some ctx =>
      let a := anonymizeUserContext ctx
      { s1 with ctxState := a.state, ctxCounty := a.county, ctxZip := a.zipCode }

/-- Modelled from the spec: updateSession merges, anonymizes, re encrypts
and persists, failing with SessionNotFoundError on a dead identifier. -/
def updateSession (σ : StoreState) (id : Nat) (u : SessionUpdate) (now : Nat) :
    Except StoreError StoreState :=
  if isDead σ id then .error .sessionNotFound
  else
    match σ.store id with
    | none => .error .sessionNotFound
    | some blob =>
        match decryptRecord σ.key blob with
        | none => .error .integrityError
        | some s =>
            .ok { σ with
              store := fun x =>
                if x = id then some (encryptRecord σ.key (applyUpdate s u now))
                else σ.store x }

/-- Modelled from the spec: storeAudioData encrypts the bytes, writes them
to the file store, tracks the path against the session and returns it. -/
def storeAudioData (σ : StoreState) (id : Nat) (data : List Nat) :
    Except StoreError (StoreState × Nat) :=
  if isDead σ id then .error .sessionNotFound
  else
    .ok ({ σ with
        fsys :=
          { files := fun p =>
              if p = σ.nextPath then some (encrypt σ.key data)
              else σ.fsys.files p,
            faulty := σ.fsys.faulty,
            rng := σ.fsys.rng }
        tracked := fun x =>
          if x = id then σ.nextPath :: σ.tracked x else σ.tracked x
        nextPath := σ.nextPath + 1 }, σ.nextPath)

/-- Modelled from the spec: retrieveAudioData reads and decrypts, failing
on a dead identifier and on a path not tracked for this session. -/
def retrieveAudioData (σ : StoreState) (id path : Nat) :
    Except StoreError (List Nat) :=
  if isDead σ id then .error .sessionNotFound
  else if path ∈ σ.tracked id then
    match σ.fsys.files path with
    | none => .error .integrityError
    | some ct =>
        match decrypt σ.key ct with
        | .ok bs => .ok bs
        | .error _ => .error .integrityError
  else .error .sessionNotFound

/-- Modelled from the spec: deleteAudioData secure deletes immediately and
untracks the path, failing on a dead identifier. -/
def deleteAudioData (σ : StoreState) (id path : Nat) :
    Except StoreError StoreState :=
  if isDead σ id then .error .sessionNotFound
  else
    let r := secureDeleteFile σ.fsys path
    match r.2.2 with
    | .ok _ =>
        .ok { σ with
          fsys := r.1
          tracked := fun x =>
            if x = id then (σ.tracked x).filter (fun p => decide (p ≠ path))
            else σ.tracked x }
    | .error e => .error e

/-- Secure deletion of a list of tracked paths; returns the resulting file
system and the paths whose deletion failed. -/
def deleteAll (fs : FileSys) : List Nat → FileSys × List Nat
  | [] => (fs, [])
  | p :: ps =>
      let r := secureDeleteFile fs p
      let rest := deleteAll r.1 ps
      match r.2.2 with
      | .ok _ => rest
      | .error _ => (rest.1, p :: rest.2)

/-- Modelled from the spec: endSession secure deletes every tracked file,
then deletes the encrypted record and marks the session Ended; if some file
deletion fails the record deletion is deferred, the session is marked
Ending, and the error is surfaced. -/
def endSession (σ : StoreState) (id : Nat) :
    StoreState × Except StoreError Unit :=
  if isDead σ id then (σ, .error .sessionNotFound)
  else
    let r := deleteAll σ.fsys (σ.tracked id)
    if r.2.isEmpty then
      ({ σ with
          fsys := r.1
          store := fun x => if x = id then none else σ.store x
          tracked := fun x => if x = id then [] else σ.tracked x
          ended := fun x => if x = id then true else σ.ended x
          ending := fun x => if x = id then false else σ.ending x },
        .ok ())
    else
      ({ σ with
          fsys := r.1
          tracked := fun x => if x = id then r.2 else σ.tracked x
          ending := fun x => if x = id then true else σ.ending x },
        .error .secureDeletionError)

/-- Modelled from the spec: the privacy report, whether data is encrypted
and how many tracked temporary files remain outstanding. -/
def getPrivacyReport (σ : StoreState) (id : Nat) :
    Except StoreError (Bool × Nat) :=
  if isDead σ id then .error .sessionNotFound
  else .ok (true, (σ.tracked id).length)

/-- One state transition of the Encrypted Session Store. -/
inductive Step : StoreState → StoreState → Prop
  | create (σ : StoreState) (now : Nat) : Step σ (createSession σ now).1
  | update (σ σ2 : StoreState) (id : Nat) (u : SessionUpdate) (now : Nat) :
      updateSession σ id u now = .ok σ2 → Step σ σ2
  | storeAudio (σ σ2 : StoreState) (id : Nat) (data : List Nat) (path : Nat) :
      storeAudioData σ id data = .ok (σ2, path) → Step σ σ2
  | endS (σ : StoreState) (id : Nat) : Step σ (endSession σ id).1
  | deleteAudio (σ σ2 : StoreState) (id path : Nat) :
      deleteAudioData σ id path = .ok σ2 → Step σ σ2

/-- The reachable states of the Encrypted Session Store. -/
inductive Reachable : StoreState → Prop
  | init (key : Nat) (faulty : Nat → Bool) : Reachable (initState key faulty)
  | step (σ σ2 : StoreState) : Reachable σ → Step σ σ2 → Reachable σ2

/-! ## Secure deletion contract -/

/-- C8: secureDeleteFile on an existing path overwrites the content with
fresh random bytes for at least three passes, flushing between passes,
before removing the path; a missing path is a no op success, so the
operation is idempotent; and it fails with SecureDeletionError exactly
when a pass or the removal faults, in which case the file is still
present, never reported deleted. -/
theorem secure_delete_file_contract (fs : FileSys) (path : Nat) :
    (fs.files path = none → secureDeleteFile fs path = (fs, [], .ok ())) ∧
    (∀ content, fs.files path = some content → fs.faulty path = false →
      (secureDeleteFile fs path).2.2 = .ok () ∧
      (secureDeleteFile fs path).1.files path = none ∧
      (∀ q, q ≠ path → (secureDeleteFile fs path).1.files q = fs.files q) ∧
      (secureDeleteFile fs path).2.1 =
        [.write path (randomBytes fs.rng content.length), .flush,
          .write path (randomBytes (fs.rng + 1) content.length), .flush,
          .write path (randomBytes (fs.rng + 2) content.length), .flush,
          .remove path] ∧
      countWrites (secureDeleteFile fs path).2.1 = secureDeletePasses ∧
      3 ≤ secureDeletePasses ∧
      secureDeleteFile (secureDeleteFile fs path).1 path =
        ((secureDeleteFile fs path).1, [], .ok ())) ∧
    (∀ content, fs.files path = some content → fs.faulty path = true →
      (secureDeleteFile fs path).2.2 = .error .secureDeletionError ∧
      (secureDeleteFile fs path).1.files path = some content) ∧
    ((secureDeleteFile fs path).2.2 = .error .secureDeletionError ↔
      (∃ content, fs.files path = some content) ∧ fs.faulty path = true) := by
  refine ⟨fun h => by simp [secureDeleteFile, h], ?_, ?_, ?_⟩
  · intro content hc hf
    refine ⟨by simp [secureDeleteFile, hc, hf], by simp [secureDeleteFile, hc, hf],
      fun q hq => by simp [secureDeleteFile, hc, hf, hq], ?_, ?_, by norm_num [secureDeletePasses], ?_⟩
    · simp [secureDeleteFile, hc, hf, overwriteEvents, secureDeletePasses]
    · simp [secureDeleteFile, hc, hf, overwriteEvents, secureDeletePasses,
        countWrites]
    · have hnone : (secureDeleteFile fs path).1.files path = none := by
        simp [secureDeleteFile, hc, hf]
      set fs2 := (secureDeleteFile fs path).1 with hfs2
      simp [secureDeleteFile, hnone]
  · intro content hc hf
    exact ⟨by simp [secureDeleteFile, hc, hf], by simp [secureDeleteFile, hc, hf]⟩
  · constructor
    · intro h
      cases hc : fs.files path with
      | none => rw [show secureDeleteFile fs path = (fs, [], .ok ()) from by
          simp [secureDeleteFile, hc]] at h; simp at h
      | some content =>
          by_cases hf : fs.faulty path = true
          · exact ⟨⟨content, rfl⟩, hf⟩

          · rw [show (secureDeleteFile fs path).2.2 = .ok () from by
              simp [secureDeleteFile, hc, hf]] at h
            simp at h
    · rintro ⟨⟨content, hc⟩, hf⟩
      simp [secureDeleteFile, hc, hf]

/-- Witness for C8 at a concrete file system with a healthy file at path
zero, a faulty file at path one, and no file at path two. -/
theorem secure_delete_file_contract_witness :
    (secureDeleteFile
      ⟨fun p => if p = 0 then some [1, 2, 3] else
        (if p = 1 then some [4] else none), fun p => decide (p = 1), 7⟩
      0).2.2 = .ok () ∧
    (secureDeleteFile
      ⟨fun p => if p = 0 then some [1, 2, 3] else
        (if p = 1 then some [4] else none), fun p => decide (p = 1), 7⟩
      0).1.files 0 = none ∧
    (secureDeleteFile
      ⟨fun p => if p = 0 then some [1, 2, 3] else
        (if p = 1 then some [4] else none), fun p => decide (p = 1), 7⟩
      1).2.2 = .error .secureDeletionError ∧
    secureDeleteFile
      ⟨fun p => if p = 0 then some [1, 2, 3] else
        (if p = 1 then some [4] else none), fun p => decide (p = 1), 7⟩
      2 = (⟨fun p => if p = 0 then some [1, 2, 3] else
        (if p = 1 then some [4] else none), fun p => decide (p = 1), 7⟩,
        [], .ok ()) := by
  have h0 := secure_delete_file_contract
    ⟨fun p => if p = 0 then some [1, 2, 3] else
      (if p = 1 then some [4] else none), fun p => decide (p = 1), 7⟩ 0
  have h1 := secure_delete_file_contract
    ⟨fun p => if p = 0 then some [1, 2, 3] else
      (if p = 1 then some [4] else none), fun p => decide (p = 1), 7⟩ 1
  have h2 := secure_delete_file_contract
    ⟨fun p => if p = 0 then some [1, 2, 3] else
      (if p = 1 then some [4] else none), fun p => decide (p = 1), 7⟩ 2
  have hok := h0.2.1 [1, 2, 3] (by decide) (by decide)
  have hfault := h1.2.2.1 [4] (by decide) (by decide)
  exact ⟨hok.1, hok.2.1, hfault.1, h2.1 (by decide)⟩

/-! ## The persisted layout invariant -/

lemma encryptRecord_chars (key : Nat) (s : SessionData) :
    ∀ c ∈ encryptRecord key s, isB64Char c :=
  base64Encode_chars _ (encrypt_bytes_lt key _)

lemma encryptRecord_ne_serialize (key : Nat) (s s2 : SessionData) :
    encryptRecord key s ≠ serializeSession s2 := by
  intro h
  have hm : '{' ∈ encryptRecord key s := by
    rw [h, serializeSession]
    exact List.mem_cons_self _ _
  have hb := encryptRecord_chars key s '{' hm
  rcases hb with hb | hb
  · revert hb
    decide
  · exact absurd hb (by decide)

lemma record_blob_good (key : Nat) (s : SessionData) :
    (∃ s1, encryptRecord key s = encryptRecord key s1) ∧
    (∀ c ∈ encryptRecord key s, isB64Char c) ∧
    (∀ s2, encryptRecord key s ≠ serializeSession s2) :=
  ⟨⟨s, rfl⟩, encryptRecord_chars key s, encryptRecord_ne_serialize key s⟩

/-- C3: over every reachable state of the Encrypted Session Store, after
any sequence of createSession, getSession, updateSession and storeAudioData
operations (and also endSession and deleteAudioData), every value held in
the underlying session store is an encrypted, base64 safe blob in the image
of encryptRecord, and is never the plaintext serialization of any record;
the stored record is the ciphertext text alone, so the key is not part of
it. -/
theorem encrypted_store_invariant :
    ∀ σ, Reachable σ → ∀ id blob, σ.store id = some blob →
      (∃ s, blob = encryptRecord σ.key s) ∧
      (∀ c ∈ blob, isB64Char c) ∧
      (∀ s2, blob ≠ serializeSession s2) := by
  intro σ hr
  induction hr with
  | init key faulty =>
      intro id blob h
      simp [initState] at h
  | step σ σ2 hr hstep ih =>
      cases hstep with
      | create now =>
          intro id blob h
          have h2 : (if id = σ.nextId then
              some (encryptRecord σ.key (emptySession σ.nextId now))
            else σ.store id) = some blob := h
          by_cases hid : id = σ.nextId
          · rw [if_pos hid] at h2
            have hb : encryptRecord σ.key (emptySession σ.nextId now) = blob :=
              Option.some.inj h2
            subst hb
            exact record_blob_good σ.key _
          · rw [if_neg hid] at h2
            exact ih id blob h2
      | update σ2b id0 u now hu =>
          rw [updateSession] at hu
          split at hu
          · exact absurd hu (by simp)
          · split at hu
            · exact absurd hu (by simp)
            · split at hu
              · exact absurd hu (by simp)
              · rw [Except.ok.injEq] at hu
                subst hu
                intro id blob h
                have h2 : (if id = id0 then
                    some (encryptRecord σ.key (applyUpdate _ u now))
                  else σ.store id) = some blob := h
                by_cases hid : id = id0
                · rw [if_pos hid] at h2
                  have hb : encryptRecord σ.key (applyUpdate _ u now) = blob :=
                    Option.some.inj h2
                  subst hb
                  exact record_blob_good σ.key _
                · rw [if_neg hid] at h2
                  exact ih id blob h2
      | storeAudio σ2b id0 data path hsa =>
          rw [storeAudioData] at hsa
          split at hsa
          · exact absurd hsa (by simp)
          · rw [Except.ok.injEq, Prod.mk.injEq] at hsa
            obtain ⟨hσ, -⟩ := hsa
            subst hσ
            intro id blob h
            exact ih id blob h
      | endS id0 =>
          have hkey : (endSession σ id0).1.key = σ.key := by
            simp only [endSession]
            split
            · rfl
            · split <;> rfl
          have hstore : (endSession σ id0).1.store = σ.store ∨
              (endSession σ id0).1.store =
                (fun x => if x = id0 then none else σ.store x) := by
            simp only [endSession]
            split
            · exact Or.inl rfl
            · split
              · exact Or.inr rfl
              · exact Or.inl rfl
          intro id blob h
          rw [hkey]
          rcases hstore with hs | hs
          · rw [hs] at h
            exact ih id blob h
          · rw [hs] at h
            simp only [] at h
            by_cases hid : id = id0
            · rw [if_pos hid] at h
              exact absurd h (by simp)
            · rw [if_neg hid] at h
              exact ih id blob h
      | deleteAudio σ2b id0 path hda =>
          simp only [deleteAudioData] at hda
          split at hda
          · exact absurd hda (by simp)
          · split at hda
            · rw [Except.ok.injEq] at hda
              subst hda
              intro id blob h
              exact ih id blob h
            · exact absurd hda (by simp)

/-- Witness for C3 at the state reached by one createSession from a fresh
store. -/
theorem encrypted_store_invariant_witness :
    (∃ s, encryptRecord 5 (emptySession 0 100) = encryptRecord 5 s) ∧
    (∀ c ∈ encryptRecord 5 (emptySession 0 100), isB64Char c) ∧
    (∀ s2, encryptRecord 5 (emptySession 0 100) ≠ serializeSession s2) :=
  encrypted_store_invariant
    (createSession (initState 5 (fun _ => false)) 100).1
    (Reachable.step _ _ (Reachable.init 5 (fun _ => false))
      (Step.create (initState 5 (fun _ => false)) 100))
    0 (encryptRecord 5 (emptySession 0 100)) (by decide)

/-! ## Secure deletion completeness of endSession -/

lemma secureDeleteFile_none_mono (fs : FileSys) (p q : Nat)
    (h : fs.files q = none) : (secureDeleteFile fs p).1.files q = none := by
  by_cases hpq : q = p
  · subst hpq
    simp [secureDeleteFile, h]
  · cases hp : fs.files p with
    | none => simp [secureDeleteFile, hp, h]
    | some ct =>
        by_cases hf : fs.faulty p = true
        · simp [secureDeleteFile, hp, hf, h]
        · simp [secureDeleteFile, hp, hf, hpq, h]

lemma secureDeleteFile_ok_none (fs : FileSys) (p : Nat)
    (h : (secureDeleteFile fs p).2.2 = .ok ()) :
    (secureDeleteFile fs p).1.files p = none := by
  cases hp : fs.files p with
  | none => simp [secureDeleteFile, hp]
  | some ct =>
      by_cases hf : fs.faulty p = true
      · rw [show (secureDeleteFile fs p).2.2 =
            .error .secureDeletionError from by simp [secureDeleteFile, hp, hf]]
          at h
        simp at h
      · simp [secureDeleteFile, hp, hf]

lemma deleteAll_none_mono :
    ∀ (ps : List Nat) (fs : FileSys) (q : Nat), fs.files q = none →
      (deleteAll fs ps).1.files q = none := by
  intro ps
  induction ps with
  | nil => intro fs q h; exact h
  | cons p ps ih =>
      intro fs q h
      simp only [deleteAll]
      cases hr : (secureDeleteFile fs p).2.2 with
      | ok u => exact ih _ q (secureDeleteFile_none_mono fs p q h)
      | error e => exact ih _ q (secureDeleteFile_none_mono fs p q h)

lemma deleteAll_clean :
    ∀ (ps : List Nat) (fs : FileSys), (deleteAll fs ps).2 = [] →
      ∀ p ∈ ps, (deleteAll fs ps).1.files p = none := by
  intro ps
  induction ps with
  | nil => intro fs _ p hp; simp at hp
  | cons p0 ps ih =>
      intro fs hclean p hp
      simp only [deleteAll] at hclean ⊢
      cases hr : (secureDeleteFile fs p0).2.2 with
      | error e =>
          rw [hr] at hclean
          simp at hclean
      | ok u =>
          rw [hr] at hclean
          rcases List.mem_cons.mp hp with rfl | hp2
          · have hu : u = () := rfl
            subst hu
            exact deleteAll_none_mono ps _ p
              (secureDeleteFile_ok_none fs p hr)
          · exact ih _ hclean p hp2

/-- C7: when endSession completes successfully, no tracked temporary file
path for the session remains in the file store, the tracking is empty, the
encrypted record is gone and getSession reports not found with the session
marked Ended; when a tracked file deletion fails, the record deletion is
deferred (the record is still stored), the session is marked Ending and not
Ended, and the error is surfaced. -/
theorem end_session_cleanup (σ : StoreState) (id : Nat) :
    ((endSession σ id).2 = .ok () →
      (∀ p ∈ σ.tracked id, (endSession σ id).1.fsys.files p = none) ∧
      (endSession σ id).1.tracked id = [] ∧
      (endSession σ id).1.store id = none ∧
      getSession (endSession σ id).1 id = .error .sessionNotFound ∧
      (endSession σ id).1.ended id = true) ∧
    ((endSession σ id).2 = .error .secureDeletionError →
      (endSession σ id).1.ending id = true ∧
      (endSession σ id).1.ended id = false ∧
      (endSession σ id).1.store id = σ.store id ∧
      (endSession σ id).1.store id ≠ none) := by
  by_cases hd : isDead σ id = true
  · rw [show endSession σ id = (σ, .error .sessionNotFound) from by
      simp [endSession, hd]]
    constructor
    · intro h; simp at h
    · intro h; simp at h
  · have hded : σ.ended id = false ∧ σ.store id ≠ none := by
      simp only [isDead, Bool.or_eq_true, Option.isNone_iff_eq_none] at hd
      push_neg at hd
      exact ⟨Bool.not_eq_true _ ▸ (by simpa using hd.1), hd.2⟩
    by_cases hemp : (deleteAll σ.fsys (σ.tracked id)).2.isEmpty = true
    · rw [show endSession σ id =
        ({ σ with
            fsys := (deleteAll σ.fsys (σ.tracked id)).1
            store := fun x => if x = id then none else σ.store x
            tracked := fun x => if x = id then [] else σ.tracked x
            ended := fun x => if x = id then true else σ.ended x
            ending := fun x => if x = id then false else σ.ending x },
          .ok ()) from by simp [endSession, hd, hemp]]
      constructor
      · intro _
        refine ⟨?_, by simp, by simp, ?_, by simp⟩
        · intro p hp
          exact deleteAll_clean (σ.tracked id) σ.fsys
            (List.isEmpty_iff.mp hemp) p hp
        · simp [getSession, isDead]
      · intro h
        simp at h
    · rw [show endSession σ id =
        ({ σ with
            fsys := (deleteAll σ.fsys (σ.tracked id)).1
            tracked := fun x =>
              if x = id then (deleteAll σ.fsys (σ.tracked id)).2
              else σ.tracked x
            ending := fun x => if x = id then true else σ.ending x },
          .error .secureDeletionError) from by simp [endSession, hd, hemp]]
      constructor
      · intro h
        simp at h
      · intro _
        exact ⟨by simp, hded.1, rfl, hded.2⟩

/-- Witness for C7 at a concrete store with one tracked healthy file. -/
theorem end_session_cleanup_witness :
    (∀ p ∈ (⟨3, fun x => if x = 0 then some ['A'] else none,
        ⟨fun p => if p = 0 then some [1, 2] else none, fun _ => false, 0⟩,
        fun x => if x = 0 then [0] else [], fun _ => false, fun _ => false,
        1, 1⟩ : StoreState).tracked 0,
      (endSession (⟨3, fun x => if x = 0 then some ['A'] else none,
        ⟨fun p => if p = 0 then some [1, 2] else none, fun _ => false, 0⟩,
        fun x => if x = 0 then [0] else [], fun _ => false, fun _ => false,
        1, 1⟩ : StoreState) 0).1.fsys.files p = none) ∧
    getSession (endSession (⟨3, fun x => if x = 0 then some ['A'] else none,
        ⟨fun p => if p = 0 then some [1, 2] else none, fun _ => false, 0⟩,
        fun x => if x = 0 then [0] else [], fun _ => false, fun _ => false,
        1, 1⟩ : StoreState) 0).1 0 = .error .sessionNotFound := by
  have h := (end_session_cleanup (⟨3, fun x => if x = 0 then some ['A'] else none,
      ⟨fun p => if p = 0 then some [1, 2] else none, fun _ => false, 0⟩,
      fun x => if x = 0 then [0] else [], fun _ => false, fun _ => false,
      1, 1⟩ : StoreState) 0).1 (by decide)
  exact ⟨h.1, h.2.2.2.1⟩

/-! ## No transition out of Ended -/

lemma endSession_shape (σ : StoreState) (id0 : Nat) :
    ((endSession σ id0).1.store = σ.store ∧
      (endSession σ id0).1.ended = σ.ended ∧
      (endSession σ id0).1.nextId = σ.nextId) ∨
    (isDead σ id0 = false ∧
      (endSession σ id0).1.store =
        (fun x => if x = id0 then none else σ.store x) ∧
      (endSession σ id0).1.ended =
        (fun x => if x = id0 then true else σ.ended x) ∧
      (endSession σ id0).1.nextId = σ.nextId) := by
  simp only [endSession]
  split
  · exact Or.inl ⟨rfl, rfl, rfl⟩
  · rename_i hdd
    split
    · exact Or.inr ⟨by simpa using hdd, rfl, rfl, rfl⟩
    · exact Or.inl ⟨rfl, rfl, rfl⟩

lemma reachable_bounds :
    ∀ σ, Reachable σ →
      (∀ id, σ.ended id = true → id < σ.nextId ∧ σ.store id = none) ∧
      (∀ id blob, σ.store id = some blob → id < σ.nextId) := by
  intro σ hr
  induction hr with
  | init key faulty =>
      constructor
      · intro id h
        simp [initState] at h
      · intro id blob h
        simp [initState] at h
  | step σ σ2 hr hstep ih =>
      cases hstep with
      | create now =>
          constructor
          · intro id hend
            have hend2 : σ.ended id = true := hend
            obtain ⟨hlt, hnone⟩ := ih.1 id hend2
            refine ⟨by show id < σ.nextId + 1; omega, ?_⟩
            show (if id = σ.nextId then _ else σ.store id) = none
            rw [if_neg (by omega)]
            exact hnone
          · intro id blob hblob
            have hblob2 : (if id = σ.nextId then
                some (encryptRecord σ.key (emptySession σ.nextId now))
              else σ.store id) = some blob := hblob
            show id < σ.nextId + 1
            by_cases hid : id = σ.nextId
            · omega
            · rw [if_neg hid] at hblob2
              have := ih.2 id blob hblob2
              omega
      | update σ2b id0 u now hu =>
          rw [updateSession] at hu
          split at hu
          · exact absurd hu (by simp)
          · split at hu
            · exact absurd hu (by simp)
            · rename_i hs0
              split at hu
              · exact absurd hu (by simp)
              · rw [Except.ok.injEq] at hu
                subst hu
                constructor
                · intro id hend
                  have hend2 : σ.ended id = true := hend
                  obtain ⟨hlt, hnone⟩ := ih.1 id hend2
                  refine ⟨hlt, ?_⟩
                  show (if id = id0 then _ else σ.store id) = none
                  rw [if_neg ?_]
                  · exact hnone
                  · intro hid
                    subst hid
                    rw [hnone] at hs0
                    exact Option.noConfusion hs0
                · intro id blob hblob
                  have hblob2 : (if id = id0 then
                      some (encryptRecord σ.key (applyUpdate _ u now))
                    else σ.store id) = some blob := hblob
                  show id < σ.nextId
                  by_cases hid : id = id0
                  · subst hid
                    exact ih.2 id _ hs0
                  · rw [if_neg hid] at hblob2
                    exact ih.2 id blob hblob2
      | storeAudio σ2b id0 data path hsa =>
          rw [storeAudioData] at hsa
          split at hsa
          · exact absurd hsa (by simp)
          · rw [Except.ok.injEq, Prod.mk.injEq] at hsa
            obtain ⟨hσ, -⟩ := hsa
            subst hσ
            exact ih
      | endS id0 =>
          rcases endSession_shape σ id0 with ⟨hst, hen, hnx⟩ |
            ⟨hdd, hst, hen, hnx⟩
          · rw [hst, hen, hnx]
            exact ih
          · rw [hst, hen, hnx]
            have hsome : ∃ blob0, σ.store id0 = some blob0 := by
              simp only [isDead, Bool.or_eq_false_iff] at hdd
              rcases hos : σ.store id0 with _ | blob0
              · rw [hos] at hdd
                simp at hdd
              · exact ⟨blob0, rfl⟩
            obtain ⟨blob0, hblob0⟩ := hsome
            constructor
            · intro id hend
              simp only [] at hend
              by_cases hid : id = id0
              · subst hid
                refine ⟨ih.2 id blob0 hblob0, ?_⟩
                simp
              · rw [if_neg hid] at hend
                obtain ⟨hlt, hnone⟩ := ih.1 id hend
                refine ⟨hlt, ?_⟩
                simp only []
                rw [if_neg hid]
                exact hnone
            · intro id blob hblob
              simp only [] at hblob
              by_cases hid : id = id0
              · rw [if_pos hid] at hblob
                exact Option.noConfusion hblob
              · rw [if_neg hid] at hblob
                exact ih.2 id blob hblob
      | deleteAudio σ2b id0 path hda =>
          simp only [deleteAudioData] at hda
          split at hda
          · exact absurd hda (by simp)
          · split at hda
            · rw [Except.ok.injEq] at hda
              subst hda
              exact ih
            · exact absurd hda (by simp)

/-- C9: every operation of the Encrypted Session Store on an ended or
unknown session identifier fails with SessionNotFoundError, the failing
endSession leaves the state untouched, and no transition out of the Ended
state ever occurs: every step from a reachable state keeps an ended
identifier ended and keeps its record absent. -/
theorem ended_sessions_reject_all_ops :
    ∀ σ id, (σ.ended id = true ∨ σ.store id = none) →
      getSession σ id = .error .sessionNotFound ∧
      (∀ u now, updateSession σ id u now = .error .sessionNotFound) ∧
      endSession σ id = (σ, .error .sessionNotFound) ∧
      (∀ data, storeAudioData σ id data = .error .sessionNotFound) ∧
      (∀ path, retrieveAudioData σ id path = .error .sessionNotFound) ∧
      (∀ path, deleteAudioData σ id path = .error .sessionNotFound) ∧
      getPrivacyReport σ id = .error .sessionNotFound ∧
      (Reachable σ → σ.ended id = true → ∀ σ2, Step σ σ2 →
        σ2.ended id = true ∧ σ2.store id = none) := by
  intro σ id hdead
  have hd : isDead σ id = true := by
    rcases hdead with h | h <;> simp [isDead, h]
  refine ⟨by simp [getSession, hd], fun u now => by simp [updateSession, hd],
    by simp [endSession, hd], fun data => by simp [storeAudioData, hd],
    fun path => by simp [retrieveAudioData, hd],
    fun path => by simp [deleteAudioData, hd],
    by simp [getPrivacyReport, hd], ?_⟩
  intro hr hend σ2 hstep
  obtain ⟨hlt, hstnone⟩ := (reachable_bounds σ hr).1 id hend
  cases hstep with
  | create now =>
      refine ⟨hend, ?_⟩
      show (if id = σ.nextId then _ else σ.store id) = none
      rw [if_neg (by omega)]
      exact hstnone
  | update σ2b id0 u now hu =>
      rw [updateSession] at hu
      split at hu
      · exact absurd hu (by simp)
      · split at hu
        · exact absurd hu (by simp)
        · rename_i hs0
          split at hu
          · exact absurd hu (by simp)
          · rw [Except.ok.injEq] at hu
            subst hu
            refine ⟨hend, ?_⟩
            show (if id = id0 then _ else σ.store id) = none
            rw [if_neg ?_]
            · exact hstnone
            · intro hid
              subst hid
              rw [hstnone] at hs0
              exact Option.noConfusion hs0
  | storeAudio σ2b id0 data path hsa =>
      rw [storeAudioData] at hsa
      split at hsa
      · exact absurd hsa (by simp)
      · rw [Except.ok.injEq, Prod.mk.injEq] at hsa
        obtain ⟨hσ, -⟩ := hsa
        subst hσ
        exact ⟨hend, hstnone⟩
  | endS id0 =>
      rcases endSession_shape σ id0 with ⟨hst, hen, -⟩ | ⟨-, hst, hen, -⟩
      · rw [hst, hen]
        exact ⟨hend, hstnone⟩
      · rw [hst, hen]
        simp only []
        by_cases hid : id = id0
        · simp [hid]
        · rw [if_neg hid, if_neg hid]
          exact ⟨hend, hstnone⟩
  | deleteAudio σ2b id0 path hda =>
      simp only [deleteAudioData] at hda
      split at hda
      · exact absurd hda (by simp)
      · split at hda
        · rw [Except.ok.injEq] at hda
          subst hda
          exact ⟨hend, hstnone⟩
        · exact absurd hda (by simp)

/-- Witness for C9 at the reachable state obtained by creating a session
and ending it. -/
theorem ended_sessions_reject_all_ops_witness :
    getSession (endSession (createSession (initState 5 (fun _ => false)) 100).1 0).1
      0 = .error .sessionNotFound ∧
    getPrivacyReport (endSession (createSession (initState 5 (fun _ => false)) 100).1 0).1
      0 = .error .sessionNotFound := by
  have h := ended_sessions_reject_all_ops
    (endSession (createSession (initState 5 (fun _ => false)) 100).1 0).1 0
    (Or.inl (by decide))
  exact ⟨h.1, h.2.2.2.2.2.2.1⟩

end LegalAid
